import Mathlib

/-!
Verification of the pdf-consultor Hybrid Retrieval Engine (RAGService, src/app/rag_service.py)
and Hierarchical Summarization Index (RAPTORService, src/app/raptor_service.py).

Texts and identifiers are modelled as lists of characters (`Str`), scores as rationals.
The external collaborators (the sentence-transformers embedder, the FAISS index search
routine and the K-Means clusterer, the OpenAI summarizer) are parameters of the embedded
operations: the FAISS index itself stores raw vectors positionally, so the embedding keeps
only the vector count (`ntotal`) plus an abstract search function returning ranked
positions with scores, which is everything the service code observes.
-/

namespace PdfConsultor

/-- Python strings are modelled as lists of characters. -/
abbrev Str := List Char

/-- Decimal representation of a natural number, as used by f-string interpolation. -/
def natStr (n : ℕ) : Str := (Nat.repr n).data

/-- Python `str.lower()`. -/
def lowerStr (s : Str) : Str := s.map Char.toLower

/-- Python `needle in hay` substring containment on strings. -/
def containsSub (needle hay : Str) : Bool := hay.tails.any (fun t => needle.isPrefixOf t)

/-- Helper for `pySplit`: accumulates the current word (reversed) while scanning. -/
def splitWsAux : List Char → List Char → List (List Char)
  | [], cur => if cur = [] then [] else [cur.reverse]
  | c :: cs, cur =>
    if c.isWhitespace then
      if cur = [] then splitWsAux cs [] else cur.reverse :: splitWsAux cs []
    else splitWsAux cs (c :: cur)

/-- Python `str.split()` with no argument: split on whitespace runs, dropping empties. -/
def pySplit (s : Str) : List Str := splitWsAux s []

/-- Python `max` over a list of rationals; total with default 0, callers guard non-emptiness. -/
def maxD : List ℚ → ℚ
  | [] => 0
  | x :: xs => xs.foldl max x

/-- Stable insertion of an element into a score-descending list: the new element goes
before the first element whose score is `≤` its own, so among equal scores an element
inserted later (i.e. originally earlier, see `sortDesc`) comes first. -/
def insertD (x : α × ℚ) : List (α × ℚ) → List (α × ℚ)
  | [] => [x]
  | y :: ys => if y.2 ≤ x.2 then x :: y :: ys else y :: insertD x ys

/-- Python `sorted(..., key=lambda p: p[1], reverse=True)` / `.sort(...)`: the stable
descending sort by score. Stable sorts over a total preorder are unique, so any stable
implementation is a faithful model; insertion sort keeps the proofs elementary. -/
def sortDesc : List (α × ℚ) → List (α × ℚ)
  | [] => []
  | x :: xs => insertD x (sortDesc xs)

/-- `defaultdict(float)`-style accumulation: `scores[id] += x`, inserting at the end on
first occurrence (Python dicts preserve insertion order). -/
def bump (l : List (Str × ℚ)) (id : Str) (x : ℚ) : List (Str × ℚ) :=
  if ∃ p ∈ l, p.1 = id then l.map (fun p => if p.1 = id then (p.1, p.2 + x) else p)
  else l ++ [(id, x)]

/-- The stored per-fragment metadata dict built by `RAGService.add_documents`. -/
structure Meta where
  document_id : Str
  page : ℕ
  chunk_index : ℕ
  text_length : ℕ
deriving DecidableEq

/-- One value of the `documents_metadata` lookup: the fragment's text plus its metadata. -/
structure Entry where
  text : Str
  metadata : Meta
deriving DecidableEq

/-- An input chunk as handed to `add_documents`: a text and its source page. -/
structure Chunk where
  text : Str
  page : ℕ
deriving DecidableEq

/-- The mutable state of `RAGService`: the id → (text, metadata) lookup (a Python dict,
hence an insertion-ordered association list), the ordered id list used to translate FAISS
positions to ids, and the number of vectors held by the FAISS index. -/
structure RAGState where
  documents_metadata : List (Str × Entry)
  doc_ids_list : List Str
  ntotal : ℕ
deriving DecidableEq

/-- The freshly initialized service: empty lookup, empty id list, empty index. -/
def initState : RAGState := ⟨[], [], 0⟩

/-- Python dict assignment `m[id] = v`: replace in place when the key exists (keeping its
position), else append. -/
def upsert (l : List (Str × Entry)) (id : Str) (v : Entry) : List (Str × Entry) :=
  if ∃ p ∈ l, p.1 = id then l.map (fun p => if p.1 = id then (id, v) else p)
  else l ++ [(id, v)]

/-- Python `del m[id]` on a dict: drop the (first) pair with the given key; identity when
the key is absent, matching the `if doc_id in ...` guard around the `del`. -/
def eraseKey : List (Str × Entry) → Str → List (Str × Entry)
  | [], _ => []
  | p :: rest, id => if p.1 = id then rest else p :: eraseKey rest id

/-- Python `m[id]` guarded by `if id in m`. -/
def lookupMeta (l : List (Str × Entry)) (id : Str) : Option Entry :=
  (l.find? (fun p => decide (p.1 = id))).map Prod.snd

/-- The fragment ids `f"{document_id}_{i}"` generated by `add_documents`. -/
def genIds (document_id : Str) (n : ℕ) : List Str :=
  (List.range n).map (fun i => document_id ++ ('_' :: natStr i))

/-- One iteration of the `for doc_id, text, metadata in zip(...)` loop of
`add_documents`: store the entry in the lookup and append the id to `doc_ids_list`
unless it is already there. -/
def addStep (st : RAGState) (pr : Str × Entry) : RAGState :=
  { st with
    documents_metadata := upsert st.documents_metadata pr.1 pr.2
    doc_ids_list :=
      if pr.1 ∈ st.doc_ids_list then st.doc_ids_list else st.doc_ids_list ++ [pr.1] }

/-- `RAGService.add_documents`: store text+metadata under `f"{document_id}_{i}"`
(appending the id to `doc_ids_list` only when absent), then append one embedding per
chunk to the FAISS index. -/
def add_documents (s : RAGState) (chunks : List Chunk) (document_id : Str) : RAGState :=
  let ids := genIds document_id chunks.length
  let entries := chunks.enum.map (fun p =>
    Entry.mk p.2.text (Meta.mk document_id p.2.page p.1 p.2.text.length))
  let s1 := (ids.zip entries).foldl addStep s
  { s1 with ntotal := s1.ntotal + chunks.length }

/-- One iteration of the deletion loop of `delete_document`: drop the id from the
lookup and from the id list (both guarded in the source by membership tests, which the
total `eraseKey` / `List.erase` reproduce). -/
def delStep (st : RAGState) (id : Str) : RAGState :=
  { st with
    documents_metadata := eraseKey st.documents_metadata id
    doc_ids_list := st.doc_ids_list.erase id }

/-- `RAGService.delete_document`: collect the ids of the document (prefix match on the
id list), then delete each from the lookup and from the id list. The FAISS index itself
is untouched (`FAISS não suporta deleção incremental`), so `ntotal` does not change. -/
def delete_document (s : RAGState) (document_id : Str) : RAGState :=
  let doc_ids := s.doc_ids_list.filter (fun id => document_id.isPrefixOf id)
  doc_ids.foldl delStep s

/-- The candidate count `k = min(top_k * 10, self.vector_index.ntotal)` that
`vector_search` requests from the FAISS index. -/
def faissRequest (top_k ntotal : ℕ) : ℕ := min (top_k * 10) ntotal

/-- `RAGService.vector_search`. The embedding model and the FAISS inner-product search
are external: `faiss query k` stands for `self.vector_index.search(embed(query), k)`,
a ranked list of (position, score) pairs. Positions are translated to ids through
`doc_ids_list`, skipping out-of-range positions. The `document_id` parameter is accepted
and ignored, exactly as in the source. -/
def vector_search (faiss : Str → ℕ → List (ℕ × ℚ)) (s : RAGState) (query : Str)
    (top_k : ℕ) (document_id : Option Str) : List (Str × ℚ) :=
  let k := faissRequest top_k s.ntotal
  (faiss query k).filterMap (fun p =>
    if h : p.1 < s.doc_ids_list.length then some (s.doc_ids_list.get ⟨p.1, h⟩, p.2)
    else none)

/-- The `continue` condition of `keyword_search`:
`if document_id and not doc_id.startswith(document_id)` (an empty filter string is
falsy in Python, so it disables the filter). -/
def keywordSkip (document_id : Option Str) (doc_id : Str) : Bool :=
  match document_id with
  | none => false
  | some d => decide (d ≠ []) && !(d.isPrefixOf doc_id)

/-- The per-candidate relevance loop of `keyword_search`: +1 per query term occurring as
a substring, and a further +0.5 when the term padded with spaces occurs in the text
padded with spaces. -/
def termScore (query_terms : List Str) (text : Str) : ℚ :=
  query_terms.foldl (fun sc term =>
    if containsSub term text then
      sc + 1 + (if containsSub (' ' :: (term ++ [' '])) (' ' :: (text ++ [' '])) then (1:ℚ)/2 else 0)
    else sc) 0

/-- `RAGService.keyword_search`: score each stored candidate (subject to the document
filter), keep scores `> 0`, divide by the batch maximum, sort descending (stably), and
return the first `top_k`. -/
def keyword_search (s : RAGState) (query : Str) (top_k : ℕ) (document_id : Option Str) :
    List (Str × ℚ) :=
  let query_terms := pySplit (lowerStr query)
  let scored_results := s.documents_metadata.filterMap (fun pr =>
    if keywordSkip document_id pr.1 then none
    else
      let text := lowerStr pr.2.text
      let score := termScore query_terms text
      if 0 < score then some (pr.1, score) else none)
  let final :=
    if scored_results = [] then scored_results
    else
      let max_score := maxD (scored_results.map Prod.snd)
      sortDesc (scored_results.map (fun pr => (pr.1, pr.2 / max_score)))
  final.take top_k

/-- The `for rank, (doc_id, _) in enumerate(results)` accumulation loop of
`reciprocal_rank_fusion`: add `1 / (k + rank + 1)` for the id at each 0-indexed rank. -/
def rrfAdd (k : ℕ) : List (Str × ℚ) → ℕ → List (Str × ℚ) → List (Str × ℚ)
  | [], _, acc => acc
  | p :: rest, rank, acc => rrfAdd k rest (rank + 1) (bump acc p.1 (1 / ((k : ℚ) + rank + 1)))

/-- `RAGService.reciprocal_rank_fusion`: sum reciprocal-rank contributions from both
lists, sort descending by combined score, then normalize by the maximum. -/
def reciprocal_rank_fusion (vector_results keyword_results : List (Str × ℚ)) (k : ℕ) :
    List (Str × ℚ) :=
  let scores := rrfAdd k vector_results 0 []
  let scores := rrfAdd k keyword_results 0 scores
  let combined := sortDesc scores
  if combined = [] then combined
  else
    let max_score := maxD (combined.map Prod.snd)
    combined.map (fun pr => (pr.1, pr.2 / max_score))

/-- `settings.hybrid_weight_vector` (config.py default). -/
def hybrid_weight_vector : ℚ := 7/10

/-- `settings.hybrid_weight_keyword` (config.py default). -/
def hybrid_weight_keyword : ℚ := 3/10

/-- `RAGService._linear_fusion`: weighted sum of the two lists' own scores, sorted
descending, then normalized by the maximum. -/
def linear_fusion (vector_results keyword_results : List (Str × ℚ)) : List (Str × ℚ) :=
  let cs := vector_results.foldl (fun acc pr => bump acc pr.1 (pr.2 * hybrid_weight_vector)) []
  let cs := keyword_results.foldl (fun acc pr => bump acc pr.1 (pr.2 * hybrid_weight_keyword)) cs
  let combined := sortDesc cs
  if combined = [] then combined
  else
    let max_score := maxD (combined.map Prod.snd)
    combined.map (fun pr => (pr.1, pr.2 / max_score))

/-- `settings.rrf_k` (config.py default), the `k` that `hybrid_search` passes to RRF. -/
def rrf_k_setting : ℕ := 60

/-- One record of `hybrid_search`'s result list:
`{"id": ..., "text": ..., "metadata": ..., "score": ...}`. -/
structure SearchRecord where
  id : Str
  text : Str
  metadata : Meta
  score : ℚ
deriving DecidableEq

/-- `RAGService.hybrid_search`: vector and keyword sub-searches for `top_k * 2`
candidates each, fusion (RRF with `k = settings.rrf_k`, or linear), truncation to
`top_k`, and resolution of each surviving id against the lookup (ids absent from the
lookup are dropped). -/
def hybrid_search (faiss : Str → ℕ → List (ℕ × ℚ)) (s : RAGState) (query : Str)
    (top_k : ℕ) (document_id : Option Str) (use_rrf : Bool) : List SearchRecord :=
  let vector_results := vector_search faiss s query (top_k * 2) document_id
  let keyword_results := keyword_search s query (top_k * 2) document_id
  let combined :=
    if use_rrf then reciprocal_rank_fusion vector_results keyword_results rrf_k_setting
    else linear_fusion vector_results keyword_results
  (combined.take top_k).filterMap (fun pr =>
    (lookupMeta s.documents_metadata pr.1).map (fun data =>
      SearchRecord.mk pr.1 data.text data.metadata pr.2))

/-- A corpus operation: one `add_documents` or one `delete_document` call. -/
inductive Op where
  | addDoc (document_id : Str) (chunks : List Chunk)
  | delDoc (document_id : Str)

/-- Apply one corpus operation. -/
def applyOp (s : RAGState) : Op → RAGState
  | Op.addDoc d cs => add_documents s cs d
  | Op.delDoc d => delete_document s d

/-- Apply a sequence of corpus operations in order. -/
def applyOps (s : RAGState) (ops : List Op) : RAGState := ops.foldl applyOp s

/-- Checks that a trace consists only of `add_documents` calls, each of whose generated
fragment ids are pairwise distinct and absent from the id list at the moment of the
call. -/
def addsFreshB : RAGState → List Op → Bool
  | _, [] => true
  | s, Op.addDoc d cs :: rest =>
    decide (genIds d cs.length).Nodup &&
    (genIds d cs.length).all (fun id => decide (id ∉ s.doc_ids_list)) &&
    addsFreshB (applyOp s (Op.addDoc d cs)) rest
  | _, Op.delDoc _ :: rest => false

/-- The corpus-consistency property claimed in the spec, rendered over the positional
FAISS index: the index holds exactly one vector per id of `doc_ids_list` (ids and
vectors correspond by position), and the id list carries exactly the keys of the
lookup. -/
def storesConsistent (s : RAGState) : Prop :=
  s.ntotal = s.doc_ids_list.length ∧ s.doc_ids_list = s.documents_metadata.map Prod.fst

/-! ## RAPTORService (src/app/raptor_service.py) -/

/-- The id `f"chunk_{i}"` of a level-0 node. -/
def chunkId (i : ℕ) : Str := "chunk_".data ++ natStr i

/-- The id `f"summary_level{level}_cluster{ci}"` of a summary node. -/
def summaryId (level ci : ℕ) : Str :=
  "summary_level".data ++ natStr level ++ "_cluster".data ++ natStr ci

/-- The distinct keys of a `defaultdict`, in first-occurrence (insertion) order. -/
def firstOcc (labels : List ℕ) : List ℕ :=
  labels.foldl (fun acc a => if a ∈ acc then acc else acc ++ [a]) []

/-- The `clusters[label].append(i)` grouping of `cluster_chunks`: one index list per
distinct label, keys in first-occurrence order, member indices in increasing order. -/
def groupByLabels (labels : List ℕ) : List (List ℕ) :=
  (firstOcc labels).map (fun lab =>
    labels.enum.filterMap (fun p => if p.2 = lab then some p.1 else none))

/-- `RAPTORService.cluster_chunks`. The embedder + `KMeans.fit_predict` composite is
external: `kl chunks n` stands for the label array it returns. With fewer chunks than
clusters the code degrades to one singleton cluster per chunk. -/
def cluster_chunks (kl : List Str → ℕ → List ℕ) (chunks : List Str) (n_clusters : ℕ) :
    List (List ℕ) :=
  if chunks.length < n_clusters then (List.range chunks.length).map (fun i => [i])
  else groupByLabels (kl chunks n_clusters)

/-- The no-LLM fallback of `summarize_chunk_group`: `" ".join(chunks[:3])`. -/
def summarizeFallback (chunks : List Str) : Str :=
  (List.intersperse (" ".data) (chunks.take 3)).flatten

/-- One node of the RAPTOR tree dictionary: level-0 nodes carry no `children` key,
modelled as the empty list. -/
structure RNode where
  id : Str
  text : Str
  level : ℕ
  children : List Str
deriving DecidableEq

/-- What one iteration of the `while` loop of `build_raptor_tree` adds to the tree:
the clusters of the level, the level's summaries dict, and the new summary nodes. -/
structure LevelData where
  cls : List (List ℕ)
  sums : List (Str × Str)
  nodes : List RNode
deriving DecidableEq

instance : Inhabited LevelData := ⟨⟨[], [], []⟩⟩

/-- One level's summaries dict: `summary_id -> summarize_chunk_group(cluster texts)`,
in cluster order. -/
def levelSums (summ : List Str → Str) (level : ℕ) (chunks : List Str)
    (cls : List (List ℕ)) : List (Str × Str) :=
  cls.enum.map (fun p => (summaryId level p.1, summ (p.2.map (fun i => chunks.getD i []))))

/-- One level's appended tree nodes, with the `children` list exactly as the source
builds it: `f"chunk_{i}"` from the *enumeration* index `i` at level 1, and
`f"summary_level{level-1}_cluster{c}"` from the member index `c` at higher levels. -/
def levelNodes (level : ℕ) (cls : List (List ℕ)) (sums : List (Str × Str)) : List RNode :=
  (cls.zip sums).map (fun p =>
    RNode.mk p.2.1 p.2.2 level
      (p.1.enum.map (fun q =>
        if level = 1 then chunkId q.1 else summaryId (level - 1) q.2)))

/-- The `while current_level <= max_depth and len(current_chunks) >= min_chunks` loop of
`build_raptor_tree`, one `LevelData` per executed iteration. `summ` stands for
`summarize_chunk_group`. The fuel argument only bounds the recursion: called with
`fuel = maxd` at `level = 1` it never runs out before the guard fails, because the level
increases every iteration. -/
def buildLevels (kl : List Str → ℕ → List ℕ) (summ : List Str → Str) (maxd minc : ℕ) :
    ℕ → ℕ → List Str → List LevelData
  | 0, _, _ => []
  | fuel + 1, level, chunks =>
    if level ≤ maxd ∧ minc ≤ chunks.length then
      let cls := cluster_chunks kl chunks (max 2 (chunks.length / minc))
      let sums := levelSums summ level chunks cls
      LevelData.mk cls sums (levelNodes level cls sums)
        :: buildLevels kl summ maxd minc fuel (level + 1) (sums.map Prod.snd)
    else []

/-- The tree dictionary returned by `build_raptor_tree`: `summaries` is indexed by level
(position 0 = `"level_0"`), `clusters` by level − 1 (position 0 = `"level_1"`). -/
structure RaptorTree where
  nodes : List RNode
  summaries : List (List (Str × Str))
  clusters : List (List (List ℕ))
  depth : ℕ
deriving DecidableEq

/-- `RAPTORService.build_raptor_tree`: level 0 verbatim from the chunks, then the
hierarchical loop; `depth = current_level - 1`, i.e. the number of iterations run. -/
def build_raptor_tree (kl : List Str → ℕ → List ℕ) (summ : List Str → Str)
    (chunks : List Str) (max_depth min_chunks : ℕ) : RaptorTree :=
  let leafNodes := chunks.enum.map (fun p => RNode.mk (chunkId p.1) p.2 0 [])
  let level0 := chunks.enum.map (fun p => (chunkId p.1, p.2))
  let lvls := buildLevels kl summ max_depth min_chunks max_depth 1 chunks
  { nodes := leafNodes ++ (lvls.map LevelData.nodes).flatten
    summaries := level0 :: lvls.map LevelData.sums
    clusters := lvls.map LevelData.cls
    depth := lvls.length }

/-- The texts stored at level `i` of a tree, in insertion order: exactly what the loop
uses as `current_chunks` for the next iteration (`list(summaries.values())`, and the
original chunks for `i = 0`). -/
def levelTextsAt (t : RaptorTree) (i : ℕ) : List Str :=
  (t.summaries.getD i []).map Prod.snd

/-- The number of tree nodes at a given level. -/
def countLevel (t : RaptorTree) (level : ℕ) : ℕ :=
  t.nodes.countP (fun nd => decide (nd.level = level))

/-! ## Definitions supporting the claims -/

/-- The candidate count the semantic sub-search of `hybrid_search` requests from the
FAISS index: `hybrid_search` passes `top_k * 2` to `vector_search`, which requests
`faissRequest` of that. -/
def hybridSemanticRequest (top_k ntotal : ℕ) : ℕ := faissRequest (top_k * 2) ntotal

/-- The candidate count the lexical sub-search of `hybrid_search` requests:
`hybrid_search` passes `top_k * 2` to `keyword_search`, which returns at most that
many results. -/
def hybridKeywordRequest (top_k : ℕ) : ℕ := top_k * 2

/-- The lexical score as the spec words it: the count of query terms present as
substrings, plus a 0.5 bonus per term that appears as a whole word (surrounded by
spaces). Stated independently of the code's nested conditionals, for comparison with
`termScore`. -/
def specScore (terms : List Str) (text : Str) : ℚ :=
  (terms.countP (fun t => containsSub t text) : ℚ) +
    (1/2) * (terms.countP (fun t => containsSub (' ' :: (t ++ [' '])) (' ' :: (text ++ [' ']))) : ℚ)

/-- The candidates surviving the `score > 0` cut of `keyword_search` (no document
filter), with their raw (un-normalized) spec scores, in candidate order. -/
def kwSurvivors (s : RAGState) (terms : List Str) : List (Str × ℚ) :=
  s.documents_metadata.filterMap (fun pr =>
    if 0 < specScore terms (lowerStr pr.2.text) then
      some (pr.1, specScore terms (lowerStr pr.2.text))
    else none)

/-- The reciprocal-rank contributions `1 / (k + rank + 1)` of a single ranked list,
starting at a given rank: what `rrfAdd` appends when every id is new. -/
def rrfContribs (k : ℕ) : ℕ → List (Str × ℚ) → List (Str × ℚ)
  | _, [] => []
  | r, p :: rest => (p.1, 1 / ((k : ℚ) + r + 1)) :: rrfContribs k (r + 1) rest

/-- The surviving keyword candidates normalized by their batch maximum, in candidate
order (what `keyword_search` sorts before truncating). -/
def kwNormalized (s : RAGState) (terms : List Str) : List (Str × ℚ) :=
  (kwSurvivors s terms).map
    (fun pr => (pr.1, pr.2 / maxD ((kwSurvivors s terms).map Prod.snd)))

/-- The `current_chunks` texts feeding iteration `i` of the `build_raptor_tree` loop:
the original chunks for `i = 0`, else the previous iteration's summary texts. -/
def lvlTexts (chunks : List Str) (lvls : List LevelData) : ℕ → List Str
  | 0 => chunks
  | i + 1 => ((lvls.getD i default).sums).map Prod.snd

/-! ## Lemmas about the stable descending sort and the batch maximum -/

theorem mem_insertD {x y : α × ℚ} {l : List (α × ℚ)} :
    y ∈ insertD x l ↔ y = x ∨ y ∈ l := by
  induction l with
  | nil => simp [insertD]
  | cons z zs ih =>
    by_cases h : z.2 ≤ x.2
    · simp [insertD, h]
    · simp only [insertD, if_neg h, List.mem_cons, ih]
      tauto

theorem length_insertD (x : α × ℚ) (l : List (α × ℚ)) :
    (insertD x l).length = l.length + 1 := by
  induction l with
  | nil => rfl
  | cons z zs ih =>
    by_cases h : z.2 ≤ x.2 <;> simp [insertD, h, ih]

theorem length_sortDesc (l : List (α × ℚ)) : (sortDesc l).length = l.length := by
  induction l with
  | nil => rfl
  | cons x xs ih => simp [sortDesc, length_insertD, ih]

theorem mem_sortDesc {y : α × ℚ} {l : List (α × ℚ)} : y ∈ sortDesc l ↔ y ∈ l := by
  induction l with
  | nil => simp [sortDesc]
  | cons x xs ih => simp [sortDesc, mem_insertD, ih]

theorem sorted_insertD {x : α × ℚ} {l : List (α × ℚ)}
    (h : l.Pairwise (fun a b => b.2 ≤ a.2)) :
    (insertD x l).Pairwise (fun a b => b.2 ≤ a.2) := by
  induction l with
  | nil => simp [insertD]
  | cons z zs ih =>
    rcases List.pairwise_cons.mp h with ⟨hz, hzs⟩
    by_cases hc : z.2 ≤ x.2
    · rw [insertD, if_pos hc]
      refine List.pairwise_cons.mpr ⟨?_, h⟩
      intro y hy
      rcases List.mem_cons.mp hy with rfl | hy
      · exact hc
      · exact le_trans (hz y hy) hc
    · rw [insertD, if_neg hc]
      refine List.pairwise_cons.mpr ⟨?_, ih hzs⟩
      intro y hy
      rcases mem_insertD.mp hy with rfl | hy
      · exact le_of_lt (lt_of_not_le hc)
      · exact hz y hy

theorem sorted_sortDesc (l : List (α × ℚ)) :
    (sortDesc l).Pairwise (fun a b => b.2 ≤ a.2) := by
  induction l with
  | nil => simp [sortDesc]
  | cons x xs ih => exact sorted_insertD ih

theorem insertD_eq_cons {x : α × ℚ} {l : List (α × ℚ)} (h : ∀ y ∈ l, y.2 ≤ x.2) :
    insertD x l = x :: l := by
  cases l with
  | nil => rfl
  | cons z zs => rw [insertD, if_pos (h z (List.mem_cons_self z zs))]

theorem sortDesc_of_sorted {l : List (α × ℚ)}
    (h : l.Pairwise (fun a b => b.2 ≤ a.2)) : sortDesc l = l := by
  induction l with
  | nil => rfl
  | cons x xs ih =>
    rcases List.pairwise_cons.mp h with ⟨hx, hxs⟩
    rw [sortDesc, ih hxs, insertD_eq_cons hx]

theorem le_foldl_max (xs : List ℚ) (a : ℚ) : a ≤ xs.foldl max a := by
  induction xs generalizing a with
  | nil => simp
  | cons x xs ih => exact le_trans (le_max_left a x) (ih (max a x))

theorem mem_le_foldl_max {x : ℚ} {xs : List ℚ} (h : x ∈ xs) (a : ℚ) :
    x ≤ xs.foldl max a := by
  induction xs generalizing a with
  | nil => cases h
  | cons y ys ih =>
    rcases List.mem_cons.mp h with rfl | h
    · exact le_trans (le_max_right a x) (le_foldl_max ys (max a x))
    · exact ih h (max a y)

theorem foldl_max_of_le {xs : List ℚ} {a : ℚ} (h : ∀ x ∈ xs, x ≤ a) :
    xs.foldl max a = a := by
  induction xs with
  | nil => rfl
  | cons x xs ih =>
    have hx : x ≤ a := h x (List.mem_cons_self x xs)
    rw [List.foldl_cons, max_eq_left hx, ih (fun y hy => h y (List.mem_cons_of_mem x hy))]

theorem le_maxD {x : ℚ} {l : List ℚ} (h : x ∈ l) : x ≤ maxD l := by
  cases l with
  | nil => cases h
  | cons y ys =>
    rcases List.mem_cons.mp h with rfl | h
    · exact le_foldl_max ys x
    · exact mem_le_foldl_max h y

theorem maxD_cons_of_le {y : ℚ} {ys : List ℚ} (h : ∀ x ∈ ys, x ≤ y) :
    maxD (y :: ys) = y := foldl_max_of_le h

/-- The head of a non-empty score-descending list realizes the batch maximum. -/
theorem maxD_head_sorted {p : α × ℚ} {rest : List (α × ℚ)}
    (h : (p :: rest).Pairwise (fun a b => b.2 ≤ a.2)) :
    maxD ((p :: rest).map Prod.snd) = p.2 := by
  rcases List.pairwise_cons.mp h with ⟨hp, _⟩
  rw [List.map_cons]
  exact maxD_cons_of_le (by
    intro x hx
    rcases List.mem_map.mp hx with ⟨q, hq, rfl⟩
    exact hp q hq)

/-- Any sorted, positive-score list, once normalized by its batch maximum, has
non-increasing scores with head exactly 1. This is the common tail of both fusion
routines and of `keyword_search`'s normalization. -/
theorem normalized_sorted_head {sorted : List (Str × ℚ)}
    (hs : sorted.Pairwise (fun a b => b.2 ≤ a.2))
    (hpos : ∀ p ∈ sorted, 0 < p.2) (hne : sorted ≠ []) :
    ((sorted.map (fun pr => (pr.1, pr.2 / maxD (sorted.map Prod.snd)))).map Prod.snd).Pairwise
        (fun a b : ℚ => b ≤ a)
    ∧ ((sorted.map (fun pr => (pr.1, pr.2 / maxD (sorted.map Prod.snd)))).map Prod.snd).headD 0
        = 1 := by
  cases sorted with
  | nil => exact absurd rfl hne
  | cons p rest =>
    have hM : maxD ((p :: rest).map Prod.snd) = p.2 := maxD_head_sorted hs
    have hMpos : 0 < maxD ((p :: rest).map Prod.snd) := by
      rw [hM]; exact hpos p (List.mem_cons_self p rest)
    constructor
    · rw [List.map_map]
      refine List.Pairwise.map _ ?_ hs
      intro a b hab
      exact (div_le_div_iff_of_pos_right hMpos).mpr hab
    · rw [List.map_cons, List.map_cons, List.headD_cons]
      simp only [hM]
      exact div_self (ne_of_gt (hpos p (List.mem_cons_self p rest)))

/-! ## Lemmas about score accumulation (`bump`, `rrfAdd`) -/

theorem bump_of_not_mem {l : List (Str × ℚ)} {id : Str} {x : ℚ}
    (h : ¬ ∃ p ∈ l, p.1 = id) : bump l id x = l ++ [(id, x)] := by
  rw [bump, if_neg h]

theorem bump_pos {l : List (Str × ℚ)} {id : Str} {x : ℚ}
    (hl : ∀ p ∈ l, 0 < p.2) (hx : 0 < x) : ∀ p ∈ bump l id x, 0 < p.2 := by
  intro p hp
  rw [bump] at hp
  split at hp
  · rcases List.mem_map.mp hp with ⟨q, hq, rfl⟩
    split
    · exact add_pos (hl q hq) hx
    · exact hl q hq
  · rcases List.mem_append.mp hp with hq | hq
    · exact hl p hq
    · rcases List.mem_singleton.mp hq with rfl
      exact hx

theorem rrfAdd_pos {k : ℕ} {A : List (Str × ℚ)} :
    ∀ {r : ℕ} {acc : List (Str × ℚ)}, (∀ p ∈ acc, 0 < p.2) →
      ∀ p ∈ rrfAdd k A r acc, 0 < p.2 := by
  induction A with
  | nil => intro r acc hacc p hp; exact hacc p hp
  | cons q rest ih =>
    intro r acc hacc p hp
    refine ih (bump_pos hacc ?_) p hp
    have : (0 : ℚ) < (k : ℚ) + r + 1 := by positivity
    positivity

theorem rrfAdd_eq_append {k : ℕ} {A : List (Str × ℚ)} :
    ∀ {r : ℕ} {acc : List (Str × ℚ)},
      (∀ p ∈ A, ∀ q ∈ acc, q.1 ≠ p.1) → (A.map Prod.fst).Nodup →
      rrfAdd k A r acc = acc ++ rrfContribs k r A := by
  induction A with
  | nil => intro r acc _ _; simp [rrfAdd, rrfContribs]
  | cons p rest ih =>
    intro r acc hdisj hnd
    rw [List.map_cons, List.nodup_cons] at hnd
    have hnot : ¬ ∃ q ∈ acc, q.1 = p.1 := by
      rintro ⟨q, hq, hq1⟩
      exact hdisj p (List.mem_cons_self p rest) q hq hq1
    rw [rrfAdd, bump_of_not_mem hnot, rrfContribs]
    rw [ih ?_ hnd.2]
    · rw [List.append_assoc]; rfl
    · intro p' hp' q hq
      rcases List.mem_append.mp hq with hq | hq
      · exact hdisj p' (List.mem_cons_of_mem p hp') q hq
      · rcases List.mem_singleton.mp hq with rfl
        intro hc
        exact hnd.1 (hc ▸ List.mem_map_of_mem Prod.fst hp')

theorem rrfContribs_map_fst (k : ℕ) : ∀ (r : ℕ) (A : List (Str × ℚ)),
    (rrfContribs k r A).map Prod.fst = A.map Prod.fst := by
  intro r A
  induction A generalizing r with
  | nil => rfl
  | cons p rest ih => simp [rrfContribs, ih]

theorem rrfContribs_snd_mem {k : ℕ} : ∀ {r : ℕ} {A : List (Str × ℚ)} {p : Str × ℚ},
    p ∈ rrfContribs k r A → ∃ r', r ≤ r' ∧ p.2 = 1 / ((k : ℚ) + r' + 1) := by
  intro r A
  induction A generalizing r with
  | nil => intro p hp; cases hp
  | cons q rest ih =>
    intro p hp
    rcases List.mem_cons.mp hp with rfl | hp
    · exact ⟨r, le_refl r, rfl⟩
    · rcases ih hp with ⟨r', hr', hval⟩
      exact ⟨r', le_trans (Nat.le_succ r) hr', hval⟩

theorem rrfContribs_pos {k : ℕ} {r : ℕ} {A : List (Str × ℚ)} :
    ∀ p ∈ rrfContribs k r A, 0 < p.2 := by
  intro p hp
  rcases rrfContribs_snd_mem hp with ⟨r', _, hval⟩
  rw [hval]
  positivity

theorem rrfContribs_sorted (k : ℕ) : ∀ (r : ℕ) (A : List (Str × ℚ)),
    (rrfContribs k r A).Pairwise (fun a b => b.2 ≤ a.2) := by
  intro r A
  induction A generalizing r with
  | nil => exact List.Pairwise.nil
  | cons p rest ih =>
    refine List.pairwise_cons.mpr ⟨?_, ih (r + 1)⟩
    intro q hq
    rcases rrfContribs_snd_mem hq with ⟨r', hr', hval⟩
    rw [hval]
    refine one_div_le_one_div_of_le (by positivity) ?_
    have : ((r : ℚ)) ≤ (r' : ℚ) := by exact_mod_cast le_trans (Nat.le_succ r) hr'
    linarith

/-- Positivity is preserved by a weighted `bump` fold (the `_linear_fusion` loops). -/
theorem linear_fold_pos {w : ℚ} (hw : 0 < w) {L : List (Str × ℚ)} :
    ∀ {acc : List (Str × ℚ)}, (∀ p ∈ acc, 0 < p.2) → (∀ p ∈ L, 0 < p.2) →
      ∀ p ∈ L.foldl (fun acc pr => bump acc pr.1 (pr.2 * w)) acc, 0 < p.2 := by
  induction L with
  | nil => intro acc hacc _ p hp; exact hacc p hp
  | cons q rest ih =>
    intro acc hacc hL p hp
    refine ih (bump_pos hacc ?_) (fun p' hp' => hL p' (List.mem_cons_of_mem q hp')) p hp
    exact mul_pos (hL q (List.mem_cons_self q rest)) hw

/-- Common tail of both fusion routines: sorting any positive-score list descending and
normalizing by the maximum yields a non-increasing list with head 1. -/
theorem fusion_tail_spec {cs : List (Str × ℚ)} (hpos : ∀ p ∈ cs, 0 < p.2)
    (hne : sortDesc cs ≠ []) :
    (((sortDesc cs).map
        (fun pr => (pr.1, pr.2 / maxD ((sortDesc cs).map Prod.snd)))).map Prod.snd).Pairwise
      (fun a b : ℚ => b ≤ a)
    ∧ (((sortDesc cs).map
        (fun pr => (pr.1, pr.2 / maxD ((sortDesc cs).map Prod.snd)))).map Prod.snd).headD 0
      = 1 :=
  normalized_sorted_head (sorted_sortDesc cs) (fun p hp => hpos p (mem_sortDesc.mp hp)) hne

/-! ## Claim theorems: rank fusion -/

/-- C5 (counterexample): on negative input scores — cosine similarities can be
negative — `_linear_fusion` normalizes by a negative maximum, which flips the order:
the fused output is non-empty but its scores are increasing, and the first score is not
the maximum. -/
theorem fusion_normalization_counterexample :
    linear_fusion [(['a'], -1/2), (['b'], -1/5)] [] = [(['b'], 1), (['a'], 5/2)]
    ∧ ¬ ((linear_fusion [(['a'], -1/2), (['b'], -1/5)] []).map Prod.snd).Pairwise
        (fun a b : ℚ => b ≤ a) := by
  have h : linear_fusion [(['a'], -1/2), (['b'], -1/5)] [] = [(['b'], 1), (['a'], 5/2)] := by
    norm_num [linear_fusion, bump, sortDesc, insertD, maxD, hybrid_weight_vector,
      hybrid_weight_keyword]
    exact List.cons_ne_nil _ _
  refine ⟨h, ?_⟩
  rw [h]
  intro hp
  rcases List.pairwise_cons.mp hp with ⟨hle, _⟩
  have := hle ((5:ℚ)/2) (by simp)
  norm_num at this

/-- C5 (amended): the normalization invariant — scores non-increasing in output order
and first score exactly 1 — holds unconditionally for `reciprocal_rank_fusion` (its
summed contributions are always positive), and for `_linear_fusion` whenever both input
lists carry positive scores; with a negative input score the invariant fails (see the
counterexample). -/
theorem fusion_normalization_amended (v kw : List (Str × ℚ)) (rrfk : ℕ) :
    (reciprocal_rank_fusion v kw rrfk ≠ [] →
      ((reciprocal_rank_fusion v kw rrfk).map Prod.snd).Pairwise (fun a b : ℚ => b ≤ a)
      ∧ ((reciprocal_rank_fusion v kw rrfk).map Prod.snd).headD 0 = 1)
    ∧ ((∀ p ∈ v, 0 < p.2) → (∀ p ∈ kw, 0 < p.2) → linear_fusion v kw ≠ [] →
      ((linear_fusion v kw).map Prod.snd).Pairwise (fun a b : ℚ => b ≤ a)
      ∧ ((linear_fusion v kw).map Prod.snd).headD 0 = 1) := by
  constructor
  · intro hne
    have hpos : ∀ p ∈ rrfAdd rrfk kw 0 (rrfAdd rrfk v 0 []), 0 < p.2 :=
      rrfAdd_pos (rrfAdd_pos (by intro p hp; cases hp))
    rw [reciprocal_rank_fusion] at hne ⊢
    by_cases hc : sortDesc (rrfAdd rrfk kw 0 (rrfAdd rrfk v 0 [])) = []
    · simp only [hc, if_pos rfl] at hne
      exact absurd rfl hne
    · simp only [if_neg hc]
      exact fusion_tail_spec hpos hc
  · intro hv hkw hne
    have hpos : ∀ p ∈ kw.foldl (fun acc pr => bump acc pr.1 (pr.2 * hybrid_weight_keyword))
        (v.foldl (fun acc pr => bump acc pr.1 (pr.2 * hybrid_weight_vector)) []), 0 < p.2 := by
      refine linear_fold_pos (by norm_num [hybrid_weight_keyword]) ?_ hkw
      refine linear_fold_pos (by norm_num [hybrid_weight_vector]) ?_ hv
      intro p hp; cases hp
    rw [linear_fusion] at hne ⊢
    by_cases hc : sortDesc (kw.foldl (fun acc pr => bump acc pr.1 (pr.2 * hybrid_weight_keyword))
        (v.foldl (fun acc pr => bump acc pr.1 (pr.2 * hybrid_weight_vector)) [])) = []
    · simp only [hc, if_pos rfl] at hne
      exact absurd rfl hne
    · simp only [if_neg hc]
      exact fusion_tail_spec hpos hc

/-- C5 (witness): a concrete positive-score instance of the amended statement. -/
theorem fusion_normalization_amended_witness :
    (∀ p ∈ ([(['a'], 1), (['b'], 1/2)] : List (Str × ℚ)), 0 < p.2)
    ∧ (((linear_fusion [(['a'], 1), (['b'], 1/2)] []).map Prod.snd).Pairwise
        (fun a b : ℚ => b ≤ a)
      ∧ ((linear_fusion [(['a'], 1), (['b'], 1/2)] []).map Prod.snd).headD 0 = 1) := by
  have hv : ∀ p ∈ ([(['a'], 1), (['b'], 1/2)] : List (Str × ℚ)), 0 < p.2 := by
    intro p hp
    rcases List.mem_cons.mp hp with rfl | hp
    · norm_num
    · rcases List.mem_singleton.mp hp with rfl
      norm_num
  have hne : linear_fusion [(['a'], 1), (['b'], 1/2)] [] ≠ [] := by
    norm_num [linear_fusion, bump, sortDesc, insertD, maxD, hybrid_weight_vector,
      hybrid_weight_keyword]
    rw [if_neg (List.cons_ne_nil _ _)]
    exact List.cons_ne_nil _ _
  exact ⟨hv, (fusion_normalization_amended [(['a'], 1), (['b'], 1/2)] [] 60).2 hv
    (by intro p hp; cases hp) hne⟩

/-- C9: fusing a ranked list (distinct ids, as every ranked list the service produces)
with an empty second list returns exactly its ids in the same order, each score being
the reciprocal-rank contribution divided by the maximal (first) contribution. -/
theorem rrf_empty_second_list (A : List (Str × ℚ)) (k : ℕ) (h0 : A ≠ [])
    (hnd : (A.map Prod.fst).Nodup) :
    (reciprocal_rank_fusion A [] k).map Prod.fst = A.map Prod.fst
    ∧ reciprocal_rank_fusion A [] k
        = (rrfContribs k 0 A).map (fun pr => (pr.1, pr.2 / (1 / ((k : ℚ) + 1)))) := by
  have hscores : rrfAdd k [] 0 (rrfAdd k A 0 []) = rrfContribs k 0 A := by
    rw [rrfAdd]
    rw [rrfAdd_eq_append (by intro p _ q hq; cases hq) hnd]
    rfl
  have hsorted : sortDesc (rrfContribs k 0 A) = rrfContribs k 0 A :=
    sortDesc_of_sorted (rrfContribs_sorted k 0 A)
  have hmax : maxD ((rrfContribs k 0 A).map Prod.snd) = 1 / ((k : ℚ) + 1) := by
    cases A with
    | nil => exact absurd rfl h0
    | cons p rest =>
      have hs := rrfContribs_sorted k 0 (p :: rest)
      rw [rrfContribs] at hs ⊢
      rw [maxD_head_sorted hs]
      norm_num
  have hout : reciprocal_rank_fusion A [] k
      = (rrfContribs k 0 A).map (fun pr => (pr.1, pr.2 / (1 / ((k : ℚ) + 1)))) := by
    rw [reciprocal_rank_fusion]
    simp only [hscores, hsorted]
    have hne : rrfContribs k 0 A ≠ [] := by
      cases A with
      | nil => exact absurd rfl h0
      | cons p rest => rw [rrfContribs]; exact List.cons_ne_nil _ _
    rw [if_neg hne, hmax]
  refine ⟨?_, hout⟩
  rw [hout, List.map_map]
  have : (Prod.fst ∘ fun pr : Str × ℚ => (pr.1, pr.2 / (1 / ((k : ℚ) + 1)))) = Prod.fst := rfl
  rw [this, rrfContribs_map_fst]

/-- C9 (witness): the instance with two concrete fragments and the default `k = 60`. -/
theorem rrf_empty_second_list_witness :
    (([(['a'], 2), (['b'], 1)] : List (Str × ℚ)) ≠ []
      ∧ (([(['a'], 2), (['b'], 1)] : List (Str × ℚ)).map Prod.fst).Nodup)
    ∧ (reciprocal_rank_fusion [(['a'], 2), (['b'], 1)] [] 60).map Prod.fst
        = ([(['a'], 2), (['b'], 1)] : List (Str × ℚ)).map Prod.fst :=
  ⟨⟨by decide, by decide⟩,
    (rrf_empty_second_list [(['a'], 2), (['b'], 1)] 60 (by decide) (by decide)).1⟩

/-! ## Claim theorems: oversampling -/

/-- C8 (counterexample): at `top_k = 5` with a large index, the semantic sub-search of
`hybrid_search` requests `min(5 * 2 * 10, ntotal) = 100` candidates, not `5 * 10 = 50`,
and the lexical sub-search requests `5 * 2 = 10`, not the same oversampled count. -/
theorem oversample_counterexample :
    ¬ (hybridSemanticRequest 5 1000 = 5 * 10 ∧ hybridKeywordRequest 5 = 5 * 10) := by
  decide

/-- C8 (amended): `hybrid_search` asks both sub-searches for `top_k * 2` candidates; the
semantic sub-search further oversamples by 10× inside `vector_search`, requesting
`min(top_k * 20, ntotal)` from the FAISS index (so `hybrid_search` observes the index
search function only at that count), while the lexical sub-search returns at most
`top_k * 2` results. -/
theorem oversample_amended (faiss faiss' : Str → ℕ → List (ℕ × ℚ)) (s : RAGState)
    (q : Str) (top_k ntotal : ℕ) (d : Option Str) (use_rrf : Bool)
    (hf : faiss q (hybridSemanticRequest top_k s.ntotal)
        = faiss' q (hybridSemanticRequest top_k s.ntotal)) :
    hybrid_search faiss s q top_k d use_rrf = hybrid_search faiss' s q top_k d use_rrf
    ∧ hybridSemanticRequest top_k ntotal = min (top_k * 20) ntotal
    ∧ hybridKeywordRequest top_k = top_k * 2
    ∧ (keyword_search s q (hybridKeywordRequest top_k) d).length
        ≤ hybridKeywordRequest top_k := by
  refine ⟨?_, ?_, rfl, ?_⟩
  · rw [hybrid_search, hybrid_search, vector_search, vector_search]
    have : faissRequest (top_k * 2) s.ntotal = hybridSemanticRequest top_k s.ntotal := rfl
    rw [this, hf]
  · rw [hybridSemanticRequest, faissRequest, Nat.mul_assoc]
  · rw [keyword_search]
    exact le_trans (List.length_take_le _ _) (le_refl _)

/-! ## Lemmas about ingestion and deletion -/

theorem upsert_map_fst_of_mem {l : List (Str × Entry)} {id : Str} {v : Entry}
    (h : id ∈ l.map Prod.fst) : (upsert l id v).map Prod.fst = l.map Prod.fst := by
  rcases List.mem_map.mp h with ⟨p, hp, rfl⟩
  rw [upsert, if_pos ⟨p, hp, rfl⟩, List.map_map]
  refine List.map_congr_left ?_
  intro q _
  by_cases hq : q.1 = p.1
  · simp [hq]
  · simp [hq]

theorem upsert_map_fst_of_not_mem {l : List (Str × Entry)} {id : Str} {v : Entry}
    (h : id ∉ l.map Prod.fst) : (upsert l id v).map Prod.fst = l.map Prod.fst ++ [id] := by
  rw [upsert, if_neg, List.map_append]
  · rfl
  · rintro ⟨p, hp, rfl⟩
    exact h (List.mem_map_of_mem Prod.fst hp)

theorem addFold_ntotal : ∀ (trips : List (Str × Entry)) (st : RAGState),
    (trips.foldl addStep st).ntotal = st.ntotal := by
  intro trips
  induction trips with
  | nil => intro st; rfl
  | cons tr rest ih => intro st; rw [List.foldl_cons, ih]; rfl

theorem addStep_list_mem_mono {st : RAGState} {pr : Str × Entry} {x : Str}
    (h : x ∈ st.doc_ids_list) : x ∈ (addStep st pr).doc_ids_list := by
  show x ∈ (if pr.1 ∈ st.doc_ids_list then st.doc_ids_list else st.doc_ids_list ++ [pr.1])
  by_cases hc : pr.1 ∈ st.doc_ids_list
  · rw [if_pos hc]; exact h
  · rw [if_neg hc]; exact List.mem_append_left _ h

theorem addStep_keys_mem_mono {st : RAGState} {pr : Str × Entry} {x : Str}
    (h : x ∈ st.documents_metadata.map Prod.fst) :
    x ∈ (addStep st pr).documents_metadata.map Prod.fst := by
  show x ∈ (upsert st.documents_metadata pr.1 pr.2).map Prod.fst
  by_cases hc : pr.1 ∈ st.documents_metadata.map Prod.fst
  · rw [upsert_map_fst_of_mem hc]; exact h
  · rw [upsert_map_fst_of_not_mem hc]; exact List.mem_append_left _ h

theorem addStep_list_self (st : RAGState) (pr : Str × Entry) :
    pr.1 ∈ (addStep st pr).doc_ids_list := by
  show pr.1 ∈ (if pr.1 ∈ st.doc_ids_list then st.doc_ids_list else st.doc_ids_list ++ [pr.1])
  by_cases hc : pr.1 ∈ st.doc_ids_list
  · rw [if_pos hc]; exact hc
  · rw [if_neg hc]; exact List.mem_append_right _ (List.mem_singleton_self _)

theorem addStep_keys_self (st : RAGState) (pr : Str × Entry) :
    pr.1 ∈ (addStep st pr).documents_metadata.map Prod.fst := by
  show pr.1 ∈ (upsert st.documents_metadata pr.1 pr.2).map Prod.fst
  by_cases hc : pr.1 ∈ st.documents_metadata.map Prod.fst
  · rw [upsert_map_fst_of_mem hc]; exact hc
  · rw [upsert_map_fst_of_not_mem hc]
    exact List.mem_append_right _ (List.mem_singleton_self _)

theorem addFold_list_mem_mono : ∀ {trips : List (Str × Entry)} {st : RAGState} {x : Str},
    x ∈ st.doc_ids_list → x ∈ (trips.foldl addStep st).doc_ids_list := by
  intro trips
  induction trips with
  | nil => intro st x h; exact h
  | cons tr rest ih => intro st x h; exact ih (addStep_list_mem_mono h)

theorem addFold_keys_mem_mono : ∀ {trips : List (Str × Entry)} {st : RAGState} {x : Str},
    x ∈ st.documents_metadata.map Prod.fst →
    x ∈ (trips.foldl addStep st).documents_metadata.map Prod.fst := by
  intro trips
  induction trips with
  | nil => intro st x h; exact h
  | cons tr rest ih => intro st x h; exact ih (addStep_keys_mem_mono h)

theorem addFold_trip_mem : ∀ {trips : List (Str × Entry)} {st : RAGState} {tr : Str × Entry},
    tr ∈ trips → tr.1 ∈ (trips.foldl addStep st).doc_ids_list
      ∧ tr.1 ∈ (trips.foldl addStep st).documents_metadata.map Prod.fst := by
  intro trips
  induction trips with
  | nil => intro st tr h; cases h
  | cons q rest ih =>
    intro st tr h
    rw [List.foldl_cons]
    rcases List.mem_cons.mp h with rfl | h
    · exact ⟨addFold_list_mem_mono (addStep_list_self st tr),
        addFold_keys_mem_mono (addStep_keys_self st tr)⟩
    · exact ih h

theorem addFold_list_of_mem : ∀ {trips : List (Str × Entry)} {st : RAGState},
    (∀ tr ∈ trips, tr.1 ∈ st.doc_ids_list) →
    (trips.foldl addStep st).doc_ids_list = st.doc_ids_list := by
  intro trips
  induction trips with
  | nil => intro st _; rfl
  | cons tr rest ih =>
    intro st h
    have h1 : tr.1 ∈ st.doc_ids_list := h tr (List.mem_cons_self tr rest)
    have hstep : (addStep st tr).doc_ids_list = st.doc_ids_list := by
      rw [addStep, if_pos h1]
    rw [List.foldl_cons, ih ?_, hstep]
    intro q hq
    rw [hstep]
    exact h q (List.mem_cons_of_mem tr hq)

theorem addFold_keys_of_mem : ∀ {trips : List (Str × Entry)} {st : RAGState},
    (∀ tr ∈ trips, tr.1 ∈ st.documents_metadata.map Prod.fst) →
    (trips.foldl addStep st).documents_metadata.map Prod.fst
      = st.documents_metadata.map Prod.fst := by
  intro trips
  induction trips with
  | nil => intro st _; rfl
  | cons tr rest ih =>
    intro st h
    have h1 : tr.1 ∈ st.documents_metadata.map Prod.fst := h tr (List.mem_cons_self tr rest)
    have hstep : (addStep st tr).documents_metadata.map Prod.fst
        = st.documents_metadata.map Prod.fst := upsert_map_fst_of_mem h1
    rw [List.foldl_cons, ih ?_, hstep]
    intro q hq
    rw [hstep]
    exact h q (List.mem_cons_of_mem tr hq)

theorem addFold_list_append : ∀ {trips : List (Str × Entry)} {st : RAGState},
    (trips.map Prod.fst).Nodup → (∀ tr ∈ trips, tr.1 ∉ st.doc_ids_list) →
    (trips.foldl addStep st).doc_ids_list = st.doc_ids_list ++ trips.map Prod.fst := by
  intro trips
  induction trips with
  | nil => intro st _ _; simp
  | cons tr rest ih =>
    intro st hnd hfresh
    rw [List.map_cons, List.nodup_cons] at hnd
    have h1 : tr.1 ∉ st.doc_ids_list := hfresh tr (List.mem_cons_self tr rest)
    have hstep : (addStep st tr).doc_ids_list = st.doc_ids_list ++ [tr.1] := by
      rw [addStep, if_neg h1]
    rw [List.foldl_cons, ih hnd.2 ?_, hstep, List.append_assoc]
    · rfl
    · intro q hq
      rw [hstep, List.mem_append]
      rintro (hc | hc)
      · exact hfresh q (List.mem_cons_of_mem tr hq) hc
      · rcases List.mem_singleton.mp hc with hc
        exact hnd.1 (hc ▸ List.mem_map_of_mem Prod.fst hq)

theorem addStep_aligned {st : RAGState} {pr : Str × Entry}
    (h : st.doc_ids_list = st.documents_metadata.map Prod.fst) :
    (addStep st pr).doc_ids_list = (addStep st pr).documents_metadata.map Prod.fst := by
  by_cases hc : pr.1 ∈ st.doc_ids_list
  · show (if pr.1 ∈ st.doc_ids_list then st.doc_ids_list else _)
        = (upsert st.documents_metadata pr.1 pr.2).map Prod.fst
    rw [if_pos hc, upsert_map_fst_of_mem (h ▸ hc), h]
  · show (if pr.1 ∈ st.doc_ids_list then st.doc_ids_list else st.doc_ids_list ++ [pr.1])
        = (upsert st.documents_metadata pr.1 pr.2).map Prod.fst
    rw [if_neg hc, upsert_map_fst_of_not_mem (fun hm => hc (h ▸ hm)), h]

theorem addFold_aligned : ∀ {trips : List (Str × Entry)} {st : RAGState},
    st.doc_ids_list = st.documents_metadata.map Prod.fst →
    (trips.foldl addStep st).doc_ids_list
      = (trips.foldl addStep st).documents_metadata.map Prod.fst := by
  intro trips
  induction trips with
  | nil => intro st h; exact h
  | cons tr rest ih => intro st h; exact ih (addStep_aligned h)

theorem eraseKey_map_fst : ∀ (l : List (Str × Entry)) (id : Str),
    (eraseKey l id).map Prod.fst = (l.map Prod.fst).erase id := by
  intro l id
  induction l with
  | nil => rfl
  | cons p rest ih =>
    rw [List.map_cons, List.erase_cons]
    by_cases hc : p.1 = id
    · rw [eraseKey, if_pos hc]
      simp [hc]
    · rw [eraseKey, if_neg hc, List.map_cons, ih]
      have : (p.1 == id) = false := beq_eq_false_iff_ne.mpr hc
      rw [this]
      simp

theorem delFold_meta : ∀ (ids : List Str) (st : RAGState),
    (ids.foldl delStep st).documents_metadata
      = ids.foldl eraseKey st.documents_metadata := by
  intro ids
  induction ids with
  | nil => intro st; rfl
  | cons id rest ih => intro st; rw [List.foldl_cons, List.foldl_cons, ih]; rfl

theorem delFold_list : ∀ (ids : List Str) (st : RAGState),
    (ids.foldl delStep st).doc_ids_list = ids.foldl List.erase st.doc_ids_list := by
  intro ids
  induction ids with
  | nil => intro st; rfl
  | cons id rest ih => intro st; rw [List.foldl_cons, List.foldl_cons, ih]; rfl

theorem delFold_ntotal : ∀ (ids : List Str) (st : RAGState),
    (ids.foldl delStep st).ntotal = st.ntotal := by
  intro ids
  induction ids with
  | nil => intro st; rfl
  | cons id rest ih => intro st; rw [List.foldl_cons, ih]; rfl

theorem foldl_eraseKey_map_fst : ∀ (ids : List Str) (m : List (Str × Entry)),
    (ids.foldl eraseKey m).map Prod.fst = ids.foldl List.erase (m.map Prod.fst) := by
  intro ids
  induction ids with
  | nil => intro m; rfl
  | cons id rest ih => intro m; rw [List.foldl_cons, List.foldl_cons, ih, eraseKey_map_fst]

theorem delete_aligned {s : RAGState} {d : Str}
    (h : s.doc_ids_list = s.documents_metadata.map Prod.fst) :
    (delete_document s d).doc_ids_list
      = (delete_document s d).documents_metadata.map Prod.fst := by
  rw [delete_document]
  rw [delFold_list, delFold_meta, foldl_eraseKey_map_fst, h]

theorem applyOp_aligned {s : RAGState} {op : Op}
    (h : s.doc_ids_list = s.documents_metadata.map Prod.fst) :
    (applyOp s op).doc_ids_list = (applyOp s op).documents_metadata.map Prod.fst := by
  cases op with
  | addDoc d cs =>
    show (add_documents s cs d).doc_ids_list = (add_documents s cs d).documents_metadata.map Prod.fst
    rw [add_documents]
    exact addFold_aligned h
  | delDoc d => exact delete_aligned h

theorem genIds_length (d : Str) (n : ℕ) : (genIds d n).length = n := by
  rw [genIds, List.length_map, List.length_range]

/-- Combined induction for C1: alignment of id list and lookup keys is invariant, and
on fresh ingest-only traces the index size tracks the id-list length. -/
theorem applyOps_aligned_consistent : ∀ (ops : List Op) (s : RAGState),
    s.doc_ids_list = s.documents_metadata.map Prod.fst →
    ((applyOps s ops).doc_ids_list = (applyOps s ops).documents_metadata.map Prod.fst
      ∧ (addsFreshB s ops = true → s.ntotal = s.doc_ids_list.length →
          (applyOps s ops).ntotal = (applyOps s ops).doc_ids_list.length)) := by
  intro ops
  induction ops with
  | nil => intro s h; exact ⟨h, fun _ hn => hn⟩
  | cons op rest ih =>
    intro s h
    have hstep : applyOps s (op :: rest) = applyOps (applyOp s op) rest := rfl
    rcases ih (applyOp s op) (applyOp_aligned h) with ⟨ha, hc⟩
    rw [hstep]
    refine ⟨ha, ?_⟩
    intro hf hn
    cases op with
    | delDoc d => exact absurd hf (by rw [addsFreshB]; exact Bool.false_ne_true)
    | addDoc d cs =>
      rw [addsFreshB, Bool.and_assoc, Bool.and_eq_true, Bool.and_eq_true] at hf
      rcases hf with ⟨hnd, hfresh, hrest⟩
      refine hc hrest ?_
      have hnd' : (genIds d cs.length).Nodup := of_decide_eq_true hnd
      have hfresh' : ∀ id ∈ genIds d cs.length, id ∉ s.doc_ids_list := by
        intro id hid
        have := List.all_eq_true.mp hfresh id hid
        exact of_decide_eq_true this
      show (add_documents s cs d).ntotal = (add_documents s cs d).doc_ids_list.length
      rw [add_documents]
      have hlen : (genIds d cs.length).length
          ≤ (cs.enum.map (fun p => Entry.mk p.2.text
              (Meta.mk d p.2.page p.1 p.2.text.length))).length := by
        rw [genIds_length, List.length_map, List.enum_length]
      have hfst : ((genIds d cs.length).zip (cs.enum.map (fun p => Entry.mk p.2.text
          (Meta.mk d p.2.page p.1 p.2.text.length)))).map Prod.fst = genIds d cs.length :=
        List.map_fst_zip _ _ hlen
      have happ := @addFold_list_append _ s (hfst ▸ hnd') ?_
      · show (_ : RAGState).ntotal + cs.length = _
        rw [addFold_ntotal, happ, hfst, List.length_append, genIds_length, hn]
      · intro tr htr
        exact hfresh' tr.1 (hfst ▸ List.mem_map_of_mem Prod.fst htr)

/-- C1 (counterexample): ingesting one chunk for document `d` and then deleting `d`
leaves the vector in the index (`ntotal = 1`) while the id list and the lookup are
empty — the two stores diverge, so the claimed invariant fails on this operation
sequence. -/
theorem corpus_sync_counterexample :
    ¬ storesConsistent (applyOps initState
      [Op.addDoc ['d'] [Chunk.mk ['x'] 1], Op.delDoc ['d']]) := by
  intro h
  rcases h with ⟨h1, _⟩
  have : (applyOps initState [Op.addDoc ['d'] [Chunk.mk ['x'] 1], Op.delDoc ['d']]).ntotal
      = 1 := by decide
  have hlen : (applyOps initState
      [Op.addDoc ['d'] [Chunk.mk ['x'] 1], Op.delDoc ['d']]).doc_ids_list.length = 0 := by
    decide
  rw [this, hlen] at h1
  exact one_ne_zero h1

/-- C1 (amended): the id list and the lookup keys never diverge, under every operation
sequence; but the Vector Index participates in the invariant only on ingest-only
traces whose generated fragment ids are fresh — `delete_document` removes ids from the
lookup side alone (logical delete, the vectors stay in the index), and re-ingesting an
existing document appends duplicate vectors, so after either of those the index holds
vectors with no lookup entry. -/
theorem corpus_sync_amended (ops : List Op) :
    (applyOps initState ops).doc_ids_list
      = (applyOps initState ops).documents_metadata.map Prod.fst
    ∧ (addsFreshB initState ops = true → storesConsistent (applyOps initState ops)) := by
  have h := applyOps_aligned_consistent ops initState rfl
  exact ⟨h.1, fun hf => ⟨h.2 hf rfl, h.1⟩⟩

/-- C1 (witness): a fresh single-ingest trace satisfies the consistency invariant. -/
theorem corpus_sync_amended_witness :
    addsFreshB initState [Op.addDoc ['d'] [Chunk.mk ['x'] 1]] = true
    ∧ storesConsistent (applyOps initState [Op.addDoc ['d'] [Chunk.mk ['x'] 1]]) :=
  ⟨by decide, (corpus_sync_amended [Op.addDoc ['d'] [Chunk.mk ['x'] 1]]).2 (by decide)⟩

/-- C7 (counterexample): re-ingesting the same single-chunk document re-embeds it and
appends a second vector to the index: `ntotal` goes from 1 to 2. -/
theorem reingest_counterexample :
    (add_documents (add_documents initState [Chunk.mk ['x'] 1] ['d'])
        [Chunk.mk ['x'] 1] ['d']).ntotal
      ≠ (add_documents initState [Chunk.mk ['x'] 1] ['d']).ntotal := by
  decide

/-- C7 (amended): a repeated `add_documents` call with the same document id and chunks
is idempotent on the id list and on the lookup keys (nothing new is stored under a new
id), but it is not idempotent on the Vector Index: every chunk is embedded again and
`ntotal` grows by the number of chunks. -/
theorem reingest_amended (s : RAGState) (chunks : List Chunk) (d : Str) :
    (add_documents (add_documents s chunks d) chunks d).doc_ids_list
      = (add_documents s chunks d).doc_ids_list
    ∧ (add_documents (add_documents s chunks d) chunks d).documents_metadata.map Prod.fst
      = (add_documents s chunks d).documents_metadata.map Prod.fst
    ∧ (add_documents (add_documents s chunks d) chunks d).ntotal
      = (add_documents s chunks d).ntotal + chunks.length := by
  have htrip : ∀ tr ∈ (genIds d chunks.length).zip (chunks.enum.map (fun p =>
      Entry.mk p.2.text (Meta.mk d p.2.page p.1 p.2.text.length))),
      tr.1 ∈ (add_documents s chunks d).doc_ids_list
      ∧ tr.1 ∈ (add_documents s chunks d).documents_metadata.map Prod.fst := by
    intro tr htr
    exact addFold_trip_mem htr
  refine ⟨?_, ?_, ?_⟩
  · show (((genIds d chunks.length).zip _).foldl addStep (add_documents s chunks d)).doc_ids_list
      = (add_documents s chunks d).doc_ids_list
    exact addFold_list_of_mem (fun tr htr => (htrip tr htr).1)
  · show ((((genIds d chunks.length).zip _).foldl addStep
        (add_documents s chunks d)).documents_metadata).map Prod.fst
      = (add_documents s chunks d).documents_metadata.map Prod.fst
    exact addFold_keys_of_mem (fun tr htr => (htrip tr htr).2)
  · show (((genIds d chunks.length).zip _).foldl addStep (add_documents s chunks d)).ntotal
        + chunks.length
      = (add_documents s chunks d).ntotal + chunks.length
    rw [addFold_ntotal]

/-! ## Lemmas about lookup resolution and deletion filtering -/

theorem lookupMeta_mem {l : List (Str × Entry)} {id : Str} {e : Entry}
    (h : lookupMeta l id = some e) : (id, e) ∈ l := by
  rw [lookupMeta] at h
  rcases Option.map_eq_some'.mp h with ⟨q, hq, he⟩
  have h3 := List.find?_some hq
  have h2 : q ∈ l := List.mem_of_find?_eq_some hq
  have h4 : q.1 = id := of_decide_eq_true h3
  cases q with
  | mk a b =>
    cases he
    cases h4
    exact h2

theorem foldl_eraseKey_cons_skip : ∀ (ids : List Str) (k : Str × Entry)
    (m : List (Str × Entry)), (∀ id ∈ ids, ¬ (k.1 = id)) →
    ids.foldl eraseKey (k :: m) = k :: ids.foldl eraseKey m := by
  intro ids
  induction ids with
  | nil => intro k m _; rfl
  | cons id rest ih =>
    intro k m h
    rw [List.foldl_cons, List.foldl_cons, eraseKey,
      if_neg (h id (List.mem_cons_self id rest))]
    exact ih k (eraseKey m id) (fun i hi => h i (List.mem_cons_of_mem id hi))

/-- Erasing, one by one, exactly the keys satisfying `p` removes exactly the pairs whose
key satisfies `p`: the semantics of `delete_document`'s loop over the lookup. -/
theorem eraseFold_filter (p : Str → Bool) : ∀ (m : List (Str × Entry)),
    ((m.map Prod.fst).filter p).foldl eraseKey m
      = m.filter (fun pr => !(p pr.1)) := by
  intro m
  induction m with
  | nil => rfl
  | cons pr rest ih =>
    rw [List.map_cons, List.filter_cons, List.filter_cons]
    by_cases hp : p pr.1 = true
    · rw [if_pos hp, hp, List.foldl_cons, eraseKey, if_pos rfl]
      simpa using ih
    · have hp' : p pr.1 = false := Bool.eq_false_iff.mpr hp
      rw [if_neg hp, hp']
      rw [foldl_eraseKey_cons_skip _ pr rest ?_]
      · simpa using ih
      · intro id hid
        rcases List.mem_filter.mp hid with ⟨_, hpid⟩
        intro hc
        rw [hc] at hp'
        rw [hpid] at hp'
        cases hp'

/-- After `delete_document s d`, the lookup holds exactly the entries whose id does not
begin with `d` (given the id list and the lookup keys agree, which every reachable state
satisfies). -/
theorem delete_meta_filter {s : RAGState} {d : Str}
    (h : s.doc_ids_list = s.documents_metadata.map Prod.fst) :
    (delete_document s d).documents_metadata
      = s.documents_metadata.filter (fun pr => !(d.isPrefixOf pr.1)) := by
  rw [delete_document, delFold_meta, h]
  exact eraseFold_filter _ s.documents_metadata

/-! ## Claim theorems: hybrid search output -/

/-- C10: every `hybrid_search` result list has at most `top_k` records; each record's id
is a key of the lookup at search time and is returned with that key's stored text and
metadata; ids surviving fusion that are absent from the lookup are dropped. -/
theorem hybrid_search_output_spec (faiss : Str → ℕ → List (ℕ × ℚ)) (s : RAGState)
    (q : Str) (top_k : ℕ) (d : Option Str) (use_rrf : Bool) :
    (hybrid_search faiss s q top_k d use_rrf).length ≤ top_k
    ∧ ∀ rec ∈ hybrid_search faiss s q top_k d use_rrf,
        rec.id ∈ s.documents_metadata.map Prod.fst
        ∧ ∃ e, lookupMeta s.documents_metadata rec.id = some e
            ∧ rec.text = e.text ∧ rec.metadata = e.metadata := by
  constructor
  · refine le_trans (List.length_filterMap_le _ _) ?_
    rw [List.length_take]
    exact min_le_left _ _
  · intro rec hrec
    rw [hybrid_search] at hrec
    rcases List.mem_filterMap.mp hrec with ⟨pr, _, hg⟩
    rcases Option.map_eq_some'.mp hg with ⟨e, he, hmk⟩
    cases hmk
    refine ⟨?_, e, he, rfl, rfl⟩
    exact List.mem_map_of_mem Prod.fst (lookupMeta_mem he)

/-- C2 (counterexample): with documents `d` and `e` both ingested and `d` deleted, a
`hybrid_search` restricted to `document_id = "d"` still returns a record — the stale
FAISS hit resolves to `e`'s fragment, because `vector_search` ignores the document
filter and `hybrid_search` never re-checks it. -/
theorem delete_then_search_counterexample :
    hybrid_search (fun _ _ => [(0, 1)])
      (delete_document
        (add_documents (add_documents initState [Chunk.mk ['c','a','t'] 1] ['d'])
          [Chunk.mk ['c','a','t'] 1] ['e']) ['d'])
      ['z'] 5 (some ['d']) true ≠ [] := by
  have hs : delete_document
      (add_documents (add_documents initState [Chunk.mk ['c','a','t'] 1] ['d'])
        [Chunk.mk ['c','a','t'] 1] ['e']) ['d']
      = RAGState.mk [(['e','_','0'], Entry.mk ['c','a','t'] (Meta.mk ['e'] 1 0 3))]
          [['e','_','0']] 2 := by
    decide
  rw [hs]
  norm_num [hybrid_search, vector_search, keyword_search, reciprocal_rank_fusion,
    faissRequest, rrf_k_setting, keywordSkip, pySplit, splitWsAux, lowerStr, termScore,
    containsSub, rrfAdd, bump, sortDesc, insertD, maxD, lookupMeta]
  exact fun hc => Option.noConfusion hc

/-- C2 (amended): after `delete_document(d)`, no record of document `d` (id prefixed by
`d`) can ever be returned — its lookup entries are gone and `hybrid_search` resolves
ids through the lookup — and when the corpus held nothing but document `d` the search
result is empty; but records of other documents can still be returned even with
`document_id = d`, because the semantic sub-search ignores the document filter (see the
counterexample). -/
theorem delete_then_search_amended (faiss : Str → ℕ → List (ℕ × ℚ)) (s : RAGState)
    (q : Str) (top_k : ℕ) (use_rrf : Bool) (d : Str)
    (h : s.doc_ids_list = s.documents_metadata.map Prod.fst) :
    (∀ rec ∈ hybrid_search faiss (delete_document s d) q top_k (some d) use_rrf,
        ¬ (d.isPrefixOf rec.id = true))
    ∧ ((∀ id ∈ s.documents_metadata.map Prod.fst, d.isPrefixOf id = true) →
        hybrid_search faiss (delete_document s d) q top_k (some d) use_rrf = []) := by
  constructor
  · intro rec hrec hpre
    rw [hybrid_search] at hrec
    rcases List.mem_filterMap.mp hrec with ⟨pr, _, hg⟩
    rcases Option.map_eq_some'.mp hg with ⟨e, he, hmk⟩
    have hmem := lookupMeta_mem he
    rw [delete_meta_filter h] at hmem
    rcases List.mem_filter.mp hmem with ⟨_, hnp⟩
    cases hmk
    rw [hpre] at hnp
    cases hnp
  · intro hall
    have hmeta : (delete_document s d).documents_metadata = [] := by
      rw [delete_meta_filter h, List.filter_eq_nil_iff]
      intro pr hpr
      rw [hall pr.1 (List.mem_map_of_mem Prod.fst hpr)]
      simp
    rw [hybrid_search]
    rw [List.filterMap_eq_nil_iff]
    intro pr _
    rw [hmeta]
    rfl

/-- C2 (witness): concrete single-document corpus — deleting it and searching it yields
the empty list, and in particular no record of the deleted document. -/
theorem delete_then_search_amended_witness :
    ((add_documents initState [Chunk.mk ['c','a','t'] 1] ['d']).doc_ids_list
      = (add_documents initState [Chunk.mk ['c','a','t'] 1] ['d']).documents_metadata.map
          Prod.fst)
    ∧ hybrid_search (fun _ _ => [(0, 1)])
        (delete_document (add_documents initState [Chunk.mk ['c','a','t'] 1] ['d']) ['d'])
        ['z'] 5 (some ['d']) true = [] := by
  refine ⟨by decide, ?_⟩
  refine (delete_then_search_amended (fun _ _ => [(0, 1)])
    (add_documents initState [Chunk.mk ['c','a','t'] 1] ['d']) ['z'] 5 true ['d']
    (by decide)).2 ?_
  intro id hid
  have : (add_documents initState [Chunk.mk ['c','a','t'] 1] ['d']).documents_metadata.map
      Prod.fst = [['d','_','0']] := by decide
  rw [this] at hid
  rcases List.mem_singleton.mp hid with rfl
  decide

/-! ## Lemmas about substring containment and the lexical scorer -/

theorem containsSub_iff {n h : List Char} :
    containsSub n h = true ↔ ∃ u v, h = u ++ n ++ v := by
  rw [containsSub, List.any_eq_true]
  constructor
  · rintro ⟨t, ht, hpre⟩
    rcases (List.mem_tails t h).mp ht with ⟨u, rfl⟩
    rcases List.isPrefixOf_iff_prefix.mp hpre with ⟨v, rfl⟩
    exact ⟨u, v, by rw [List.append_assoc]⟩
  · rintro ⟨u, v, rfl⟩
    refine ⟨n ++ v, (List.mem_tails _ _).mpr ⟨u, by rw [List.append_assoc]⟩, ?_⟩
    exact List.isPrefixOf_iff_prefix.mpr ⟨v, rfl⟩

/-- If the span of `mid` inside `whole ++ [last]` starts after position 0 or ends
before the final element, `mid` occurs inside `whole`: core step for `padded_sub`. -/
theorem seg_in_front {w t v text : List Char} {last : Char}
    (heq : text ++ [last] = (w ++ t) ++ (last :: v)) : ∃ u' v', text = u' ++ t ++ v' := by
  have hlen : (w ++ t).length ≤ text.length := by
    have hl := congrArg List.length heq
    simp only [List.length_append, List.length_cons, List.length_nil] at hl ⊢
    omega
  have hsplit : (w ++ t) ++ (last :: v)
      = text.take (w ++ t).length ++ (text.drop (w ++ t).length ++ [last]) := by
    rw [← List.append_assoc, List.take_append_drop, ← heq]
  rcases List.append_inj hsplit (by rw [List.length_take]; exact (min_eq_left hlen).symm)
    with ⟨h1, _⟩
  refine ⟨w, text.drop (w ++ t).length, ?_⟩
  conv_lhs => rw [← List.take_append_drop (w ++ t).length text]
  rw [← h1]

/-- A whole-word hit (the term padded with spaces occurring in the text padded with
spaces) is in particular a substring hit on the unpadded text: the padding spaces
absorb the boundaries, so the term's span lies inside the text. -/
theorem padded_sub {t text : List Char}
    (h : containsSub (' ' :: (t ++ [' '])) (' ' :: (text ++ [' '])) = true) :
    containsSub t text = true := by
  rcases containsSub_iff.mp h with ⟨u, v, heq⟩
  apply containsSub_iff.mpr
  cases u with
  | nil =>
    have h2 : text ++ [' '] = ([] ++ t) ++ (' ' :: v) := by
      have h3 : (' ' : Char) :: (text ++ [' ']) = ' ' :: (t ++ (' ' :: v)) := by
        rw [heq]; simp
      have h4 := (List.cons.injEq _ _ _ _ ▸ h3 : _ ∧ _).2
      simpa using h4
    exact seg_in_front h2
  | cons uh utl =>
    have h3 : (' ' : Char) :: (text ++ [' ']) = uh :: (utl ++ (' ' :: (t ++ [' '])) ++ v) := by
      rw [heq]; simp
    have h4 := (List.cons.injEq _ _ _ _ ▸ h3 : _ ∧ _).2
    have h2 : text ++ [' '] = ((utl ++ [' ']) ++ t) ++ (' ' :: v) := by
      rw [h4]; simp
    exact seg_in_front h2

/-- The code's nested scoring loop agrees with the spec's independent-sum score: the
0.5 whole-word bonus is only tested when the term is already a substring, but a
whole-word hit always is one (`padded_sub`), so the nesting is immaterial. -/
theorem termScore_eq_specScore (terms : List Str) (text : Str) :
    termScore terms text = specScore terms text := by
  have aux : ∀ (ts : List Str) (a : ℚ),
      ts.foldl (fun sc term =>
        if containsSub term text then
          sc + 1 + (if containsSub (' ' :: (term ++ [' '])) (' ' :: (text ++ [' '])) then
            (1:ℚ)/2 else 0)
        else sc) a = a + specScore ts text := by
    intro ts
    induction ts with
    | nil => intro a; simp [specScore]
    | cons t rest ih =>
      intro a
      rw [List.foldl_cons, ih]
      by_cases hsub : containsSub t text = true
      · by_cases hword : containsSub (' ' :: (t ++ [' '])) (' ' :: (text ++ [' '])) = true
        · simp only [specScore, List.countP_cons, hsub, hword, if_true, if_pos hsub,
            if_pos hword]
          push_cast
          ring
        · simp only [specScore, List.countP_cons, hsub,
            Bool.eq_false_iff.mpr hword, if_true, if_false, if_pos hsub, if_neg hword]
          push_cast
          ring
      · have hword : containsSub (' ' :: (t ++ [' '])) (' ' :: (text ++ [' '])) = false :=
          Bool.eq_false_iff.mpr (fun hc => hsub (padded_sub hc))
        simp only [specScore, List.countP_cons, Bool.eq_false_iff.mpr hsub, hword,
          if_false, if_neg hsub]
        push_cast
        ring
  rw [termScore, aux, zero_add]

/-! ## Stability of the sort and invariance of the maximum -/

theorem filter_insertD_pos {c : ℚ} {x : α × ℚ} (hx : x.2 = c) :
    ∀ (l : List (α × ℚ)), (insertD x l).filter (fun p => decide (p.2 = c))
      = x :: l.filter (fun p => decide (p.2 = c)) := by
  intro l
  induction l with
  | nil => simp [insertD, hx]
  | cons y ys ih =>
    by_cases hc : y.2 ≤ x.2
    · rw [insertD, if_pos hc, List.filter_cons, if_pos (by simp [hx])]
    · rw [insertD, if_neg hc, List.filter_cons, List.filter_cons]
      have hy : ¬ (y.2 = c) := by
        intro hyc
        exact hc (le_of_eq (hx ▸ hyc ▸ rfl))
      rw [if_neg (by simpa using hy), if_neg (by simpa using hy), ih]

theorem filter_insertD_neg {c : ℚ} {x : α × ℚ} (hx : ¬ (x.2 = c)) :
    ∀ (l : List (α × ℚ)), (insertD x l).filter (fun p => decide (p.2 = c))
      = l.filter (fun p => decide (p.2 = c)) := by
  intro l
  induction l with
  | nil => simp [insertD, hx]
  | cons y ys ih =>
    by_cases hc : y.2 ≤ x.2
    · rw [insertD, if_pos hc, List.filter_cons, if_neg (by simpa using hx)]
    · rw [insertD, if_neg hc, List.filter_cons, List.filter_cons, ih]

/-- Stability of `sortDesc`: candidates with any fixed score keep their relative
(original) order — sorting permutes only across distinct scores. -/
theorem filter_sortDesc (c : ℚ) : ∀ (l : List (α × ℚ)),
    (sortDesc l).filter (fun p => decide (p.2 = c)) = l.filter (fun p => decide (p.2 = c)) := by
  intro l
  induction l with
  | nil => rfl
  | cons x xs ih =>
    rw [sortDesc, List.filter_cons]
    by_cases hx : x.2 = c
    · rw [filter_insertD_pos hx, ih, if_pos (by simpa using hx)]
    · rw [filter_insertD_neg hx, ih, if_neg (by simpa using hx)]

theorem filter_take_prefix (p : α × ℚ → Bool) : ∀ (n : ℕ) (l : List (α × ℚ)),
    (l.take n).filter p <+: l.filter p := by
  intro n l
  induction l generalizing n with
  | nil => simp
  | cons x xs ih =>
    cases n with
    | zero => simp
    | succ m =>
      rw [List.take_succ_cons, List.filter_cons, List.filter_cons]
      by_cases hx : p x = true
      · rw [if_pos hx, if_pos hx]
        exact List.cons_prefix_cons.mpr ⟨rfl, ih m⟩
      · rw [if_neg hx, if_neg hx]
        exact ih m

theorem insertD_map_div {M : ℚ} (hM : 0 < M) (x : α × ℚ) : ∀ (l : List (α × ℚ)),
    insertD (x.1, x.2 / M) (l.map (fun pr => (pr.1, pr.2 / M)))
      = (insertD x l).map (fun pr => (pr.1, pr.2 / M)) := by
  intro l
  induction l with
  | nil => rfl
  | cons y ys ih =>
    by_cases hc : y.2 ≤ x.2
    · rw [List.map_cons, insertD, insertD, if_pos hc, if_pos ((div_le_div_iff_of_pos_right hM).mpr hc)]
      rfl
    · have hc' : ¬ (y.2 / M ≤ x.2 / M) := fun hle =>
        hc ((div_le_div_iff_of_pos_right hM).mp hle)
      rw [List.map_cons, insertD, insertD, if_neg hc, if_neg hc', List.map_cons, ih]

theorem sortDesc_map_div {M : ℚ} (hM : 0 < M) : ∀ (l : List (α × ℚ)),
    sortDesc (l.map (fun pr => (pr.1, pr.2 / M)))
      = (sortDesc l).map (fun pr => (pr.1, pr.2 / M)) := by
  intro l
  induction l with
  | nil => rfl
  | cons x xs ih =>
    rw [List.map_cons, sortDesc, sortDesc, ih, insertD_map_div hM]

theorem foldl_max_mem : ∀ (xs : List ℚ) (a : ℚ), xs.foldl max a = a ∨ xs.foldl max a ∈ xs := by
  intro xs
  induction xs with
  | nil => intro a; exact Or.inl rfl
  | cons y ys ih =>
    intro a
    rcases ih (max a y) with h | h
    · rcases max_choice a y with hm | hm
      · exact Or.inl (by rw [List.foldl_cons, h, hm])
      · exact Or.inr (by rw [List.foldl_cons, h, hm]; exact List.mem_cons_self y ys)
    · exact Or.inr (List.mem_cons_of_mem y h)

theorem maxD_mem : ∀ {l : List ℚ}, l ≠ [] → maxD l ∈ l := by
  intro l hne
  cases l with
  | nil => exact absurd rfl hne
  | cons x xs =>
    rcases foldl_max_mem xs x with h | h
    · rw [maxD, h]; exact List.mem_cons_self x xs
    · exact List.mem_cons_of_mem x h

theorem maxD_congr_mem {l₁ l₂ : List ℚ} (h : ∀ x, x ∈ l₁ ↔ x ∈ l₂)
    (h1 : l₁ ≠ []) (h2 : l₂ ≠ []) : maxD l₁ = maxD l₂ :=
  le_antisymm (le_maxD ((h _).mp (maxD_mem h1))) (le_maxD ((h _).mpr (maxD_mem h2)))

/-! ## The lexical scorer meets its contract -/

theorem kwSurvivors_pos {s : RAGState} {terms : List Str} :
    ∀ p ∈ kwSurvivors s terms, 0 < p.2 := by
  intro p hp
  rcases List.mem_filterMap.mp hp with ⟨pr, _, hf⟩
  by_cases hc : 0 < specScore terms (lowerStr pr.2.text)
  · rw [if_pos hc] at hf
    injection hf with hf'
    rw [← hf']
    exact hc
  · rw [if_neg hc] at hf
    cases hf

theorem kwSurvivors_mem {s : RAGState} {terms : List Str} {p : Str × ℚ}
    (hp : p ∈ kwSurvivors s terms) :
    ∃ e, (p.1, e) ∈ s.documents_metadata ∧ 0 < specScore terms (lowerStr e.text)
      ∧ p.2 = specScore terms (lowerStr e.text) := by
  rcases List.mem_filterMap.mp hp with ⟨pr, hpr, hf⟩
  by_cases hc : 0 < specScore terms (lowerStr pr.2.text)
  · rw [if_pos hc] at hf
    injection hf with hf'
    rw [← hf']
    exact ⟨pr.2, by simpa using hpr, hc, rfl⟩
  · rw [if_neg hc] at hf
    cases hf

/-- `keyword_search` without a document filter, re-expressed over the spec-side
survivors: the code's scored candidates coincide with `kwSurvivors` and the rest of the
pipeline is normalization, stable sort, truncation. -/
theorem keyword_search_eq (s : RAGState) (q : Str) (top_k : ℕ) :
    keyword_search s q top_k none
      = (if kwSurvivors s (pySplit (lowerStr q)) = [] then ([] : List (Str × ℚ))
         else sortDesc (kwNormalized s (pySplit (lowerStr q)))).take top_k := by
  have hsc : s.documents_metadata.filterMap (fun pr =>
      if keywordSkip none pr.1 then none
      else
        if 0 < termScore (pySplit (lowerStr q)) (lowerStr pr.2.text) then
          some (pr.1, termScore (pySplit (lowerStr q)) (lowerStr pr.2.text))
        else none) = kwSurvivors s (pySplit (lowerStr q)) := by
    rw [kwSurvivors]
    refine List.filterMap_congr ?_
    intro pr _
    simp only [keywordSkip, if_false, Bool.false_eq_true, termScore_eq_specScore]
  simp only [keyword_search, hsc, kwNormalized]
  by_cases hc : kwSurvivors s (pySplit (lowerStr q)) = []
  · rw [if_pos hc, if_pos hc, hc]
  · rw [if_neg hc, if_neg hc]

/-- C4: the lexical scorer contract. Every returned candidate carries the spec score
(count of substring term hits plus 0.5 per whole-word hit) of some stored entry with
its id, normalized by the surviving batch maximum; zero-score candidates are discarded
and exactly `min top_k #survivors` results return; when anything returns, the top score
is exactly 1 and all scores lie in (0, 1]; scores are non-increasing; and candidates
with equal scores keep their original (candidate) order. -/
theorem keyword_search_spec (s : RAGState) (q : Str) (top_k : ℕ) :
    (∀ p ∈ keyword_search s q top_k none,
        ∃ e, (p.1, e) ∈ s.documents_metadata
          ∧ 0 < specScore (pySplit (lowerStr q)) (lowerStr e.text)
          ∧ p.2 = specScore (pySplit (lowerStr q)) (lowerStr e.text)
              / maxD ((kwSurvivors s (pySplit (lowerStr q))).map Prod.snd))
    ∧ (keyword_search s q top_k none).length
        = min top_k (kwSurvivors s (pySplit (lowerStr q))).length
    ∧ (keyword_search s q top_k none ≠ [] →
        ((keyword_search s q top_k none).map Prod.snd).headD 0 = 1)
    ∧ (∀ p ∈ keyword_search s q top_k none, 0 < p.2 ∧ p.2 ≤ 1)
    ∧ ((keyword_search s q top_k none).map Prod.snd).Pairwise (fun a b : ℚ => b ≤ a)
    ∧ (∀ c : ℚ, (keyword_search s q top_k none).filter (fun p => decide (p.2 = c))
        <+: (kwNormalized s (pySplit (lowerStr q))).filter (fun p => decide (p.2 = c))) := by
  rw [keyword_search_eq]
  by_cases hemp : kwSurvivors s (pySplit (lowerStr q)) = []
  · rw [if_pos hemp, List.take_nil]
    refine ⟨fun p hp => absurd hp (List.not_mem_nil p), ?_, fun hne => absurd rfl hne,
      fun p hp => absurd hp (List.not_mem_nil p), List.Pairwise.nil, fun c => ?_⟩
    · rw [hemp]
      simp
    · exact List.nil_prefix
  · rw [if_neg hemp]
    have hMpos : 0 < maxD ((kwSurvivors s (pySplit (lowerStr q))).map Prod.snd) := by
      have hmm := @maxD_mem ((kwSurvivors s (pySplit (lowerStr q))).map Prod.snd)
        (by simpa using hemp)
      rcases List.mem_map.mp hmm with ⟨p, hp, hval⟩
      rw [← hval]
      exact kwSurvivors_pos p hp
    have hNmem : ∀ p ∈ kwNormalized s (pySplit (lowerStr q)), 0 < p.2 ∧ p.2 ≤ 1 := by
      intro p hp
      rcases List.mem_map.mp hp with ⟨pr, hpr, rfl⟩
      constructor
      · exact div_pos (kwSurvivors_pos pr hpr) hMpos
      · rw [div_le_one hMpos]
        exact le_maxD (List.mem_map_of_mem Prod.snd hpr)
    refine ⟨?_, ?_, ?_, ?_, ?_, ?_⟩
    · intro p hp
      have hp2 := mem_sortDesc.mp (List.mem_of_mem_take hp)
      rcases List.mem_map.mp hp2 with ⟨pr, hpr, rfl⟩
      rcases kwSurvivors_mem hpr with ⟨e, hmem, hpos, hval⟩
      exact ⟨e, hmem, hpos, by rw [hval]⟩
    · rw [List.length_take, kwNormalized, length_sortDesc, List.length_map]
    · intro hne
      cases htk : top_k with
      | zero => rw [htk] at hne; exact absurd rfl hne
      | succ m =>
        rcases hS : sortDesc (kwSurvivors s (pySplit (lowerStr q))) with _ | ⟨p, rest⟩
        · exact absurd (by
            have := length_sortDesc (kwSurvivors s (pySplit (lowerStr q)))
            rw [hS] at this
            exact List.eq_nil_of_length_eq_zero this.symm) hemp
        · have hsortN : sortDesc (kwNormalized s (pySplit (lowerStr q)))
              = (p :: rest).map (fun pr => (pr.1,
                  pr.2 / maxD ((kwSurvivors s (pySplit (lowerStr q))).map Prod.snd))) := by
            rw [kwNormalized, sortDesc_map_div hMpos, hS]
          have hpm : p.2 = maxD ((kwSurvivors s (pySplit (lowerStr q))).map Prod.snd) := by
            have hs1 := sorted_sortDesc (kwSurvivors s (pySplit (lowerStr q)))
            rw [hS] at hs1
            have h2 := maxD_head_sorted hs1
            rw [← h2]
            refine maxD_congr_mem ?_ ?_ ?_
            · intro x
              constructor
              · intro hx
                rcases List.mem_map.mp hx with ⟨pr, hpr, rfl⟩
                exact List.mem_map_of_mem Prod.snd
                  (mem_sortDesc.mp (by rw [hS]; exact hpr))
              · intro hx
                rcases List.mem_map.mp hx with ⟨pr, hpr, rfl⟩
                exact List.mem_map_of_mem Prod.snd
                  (by rw [← hS]; exact mem_sortDesc.mpr hpr)
            · simp
            · simpa using hemp
          rw [hsortN, List.map_cons, List.take_succ_cons, List.map_cons, List.headD_cons]
          rw [← hpm]
          exact div_self (ne_of_gt (hpm ▸ hMpos))
    · intro p hp
      exact hNmem p (mem_sortDesc.mp (List.mem_of_mem_take hp))
    · have hs := sorted_sortDesc (kwNormalized s (pySplit (lowerStr q)))
      have hsub := hs.sublist (List.take_sublist top_k _)
      exact List.Pairwise.map _ (fun a b hab => hab) hsub
    · intro c
      have h1 := filter_take_prefix (fun p => decide (p.2 = c)) top_k
        (sortDesc (kwNormalized s (pySplit (lowerStr q))))
      rw [filter_sortDesc] at h1
      exact h1

/-- C4 (witness): a one-document corpus where the query text is the fragment text:
a non-empty result whose top score is exactly 1. -/
theorem keyword_search_spec_witness :
    keyword_search (add_documents initState [Chunk.mk ['c','a','t'] 1] ['d'])
        ['c','a','t'] 5 none ≠ []
    ∧ ((keyword_search (add_documents initState [Chunk.mk ['c','a','t'] 1] ['d'])
        ['c','a','t'] 5 none).map Prod.snd).headD 0 = 1 := by
  have hne : keyword_search (add_documents initState [Chunk.mk ['c','a','t'] 1] ['d'])
      ['c','a','t'] 5 none ≠ [] := by
    have hs : add_documents initState [Chunk.mk ['c','a','t'] 1] ['d']
        = RAGState.mk [(['d','_','0'], Entry.mk ['c','a','t'] (Meta.mk ['d'] 1 0 3))]
            [['d','_','0']] 1 := by decide
    have hterms : pySplit (lowerStr ['c','a','t']) = [['c','a','t']] := by decide
    have hspec : specScore [['c','a','t']] (lowerStr ['c','a','t']) = 3/2 := by
      have hl : lowerStr ['c','a','t'] = ['c','a','t'] := by decide
      rw [hl, specScore]
      have c1 : ([['c','a','t']].countP (fun t => containsSub t ['c','a','t'])) = 1 := by
        decide
      have c2 : ([['c','a','t']].countP (fun t =>
          containsSub (' ' :: (t ++ [' '])) (' ' :: (['c','a','t'] ++ [' '])))) = 1 := by
        decide
      rw [c1, c2]
      norm_num
    have hsurv : kwSurvivors (RAGState.mk
        [(['d','_','0'], Entry.mk ['c','a','t'] (Meta.mk ['d'] 1 0 3))] [['d','_','0']] 1)
        [['c','a','t']] = [(['d','_','0'], 3/2)] := by
      rw [kwSurvivors]
      rw [List.filterMap_cons]
      have hpos : 0 < specScore [['c','a','t']]
          (lowerStr (Entry.mk ['c','a','t'] (Meta.mk ['d'] 1 0 3)).text) := by
        rw [show (Entry.mk ['c','a','t'] (Meta.mk ['d'] 1 0 3)).text = ['c','a','t'] from rfl,
          hspec]
        norm_num
      rw [if_pos hpos]
      rw [show (lowerStr (Entry.mk ['c','a','t'] (Meta.mk ['d'] 1 0 3)).text)
          = lowerStr ['c','a','t'] from rfl, hspec]
      rfl
    rw [hs, keyword_search_eq, hterms, hsurv]
    rw [if_neg (List.cons_ne_nil _ _)]
    rw [kwNormalized, hsurv]
    intro hcon
    have hlen := congrArg List.length hcon
    rw [List.length_take, length_sortDesc, List.length_map] at hlen
    simp at hlen
  exact ⟨hne, (keyword_search_spec (add_documents initState [Chunk.mk ['c','a','t'] 1]
    ['d']) ['c','a','t'] 5).2.2.1 hne⟩

/-! ## Lemmas about the RAPTOR level-building loop -/

theorem buildLevels_succ (kl : List Str → ℕ → List ℕ) (summ : List Str → Str)
    (maxd minc fuel level : ℕ) (chunks : List Str) :
    buildLevels kl summ maxd minc (fuel + 1) level chunks
      = if level ≤ maxd ∧ minc ≤ chunks.length then
          LevelData.mk (cluster_chunks kl chunks (max 2 (chunks.length / minc)))
            (levelSums summ level chunks
              (cluster_chunks kl chunks (max 2 (chunks.length / minc))))
            (levelNodes level (cluster_chunks kl chunks (max 2 (chunks.length / minc)))
              (levelSums summ level chunks
                (cluster_chunks kl chunks (max 2 (chunks.length / minc)))))
          :: buildLevels kl summ maxd minc fuel (level + 1)
              ((levelSums summ level chunks
                (cluster_chunks kl chunks (max 2 (chunks.length / minc)))).map Prod.snd)
        else [] := rfl

theorem buildLevels_length_le (kl : List Str → ℕ → List ℕ) (summ : List Str → Str)
    (maxd minc : ℕ) : ∀ (fuel level : ℕ) (chunks : List Str),
    (buildLevels kl summ maxd minc fuel level chunks).length ≤ fuel := by
  intro fuel
  induction fuel with
  | zero => intro level chunks; exact le_refl 0
  | succ f ih =>
    intro level chunks
    rw [buildLevels_succ]
    by_cases hg : level ≤ maxd ∧ minc ≤ chunks.length
    · rw [if_pos hg, List.length_cons]
      exact Nat.succ_le_succ (ih _ _)
    · rw [if_neg hg]
      exact Nat.zero_le _

theorem lvlTexts_cons (chunks : List Str) (LD : LevelData) (lvls : List LevelData) :
    ∀ i : ℕ, lvlTexts chunks (LD :: lvls) (i + 1) = lvlTexts (LD.sums.map Prod.snd) lvls i := by
  intro i
  cases i with
  | zero => rfl
  | succ j => rfl

/-- Loop invariant of `buildLevels`: at every executed iteration `i` the guard held
(enough items, level within bound) and the recorded clusters are exactly
`cluster_chunks` of that iteration's texts with `n_clusters = max 2 (count / minc)`. -/
theorem buildLevels_chain (kl : List Str → ℕ → List ℕ) (summ : List Str → Str)
    (maxd minc : ℕ) : ∀ (fuel level : ℕ) (chunks : List Str) (i : ℕ),
    i < (buildLevels kl summ maxd minc fuel level chunks).length →
    minc ≤ (lvlTexts chunks (buildLevels kl summ maxd minc fuel level chunks) i).length
    ∧ level + i ≤ maxd
    ∧ ((buildLevels kl summ maxd minc fuel level chunks).getD i default).cls
        = cluster_chunks kl
            (lvlTexts chunks (buildLevels kl summ maxd minc fuel level chunks) i)
            (max 2
              ((lvlTexts chunks (buildLevels kl summ maxd minc fuel level chunks) i).length
                / minc)) := by
  intro fuel
  induction fuel with
  | zero =>
    intro level chunks i hi
    rw [show buildLevels kl summ maxd minc 0 level chunks = [] from rfl] at hi
    cases hi
  | succ f ih =>
    intro level chunks i hi
    rw [buildLevels_succ] at hi ⊢
    by_cases hg : level ≤ maxd ∧ minc ≤ chunks.length
    · rw [if_pos hg] at hi ⊢
      cases i with
      | zero =>
        refine ⟨hg.2, ?_, rfl⟩
        rw [Nat.add_zero]
        exact hg.1
      | succ j =>
        rw [List.length_cons] at hi
        have hj : j < (buildLevels kl summ maxd minc f (level + 1)
            ((levelSums summ level chunks
              (cluster_chunks kl chunks (max 2 (chunks.length / minc)))).map Prod.snd)).length :=
          Nat.lt_of_succ_lt_succ hi
        have hrec := ih (level + 1) _ j hj
        rw [lvlTexts_cons, List.getD_cons_succ]
        refine ⟨hrec.1, ?_, hrec.2.2⟩
        have := hrec.2.1
        omega
    · rw [if_neg hg] at hi
      cases hi

theorem getD_map_of_lt {α β : Type _} {f : α → β} : ∀ {l : List α} {i : ℕ},
    i < l.length → ∀ (d : β) (d' : α), (l.map f).getD i d = f (l.getD i d') := by
  intro l
  induction l with
  | nil => intro i hi; cases hi
  | cons a as ih =>
    intro i hi d d'
    cases i with
    | zero => rfl
    | succ j =>
      rw [List.map_cons, List.getD_cons_succ, List.getD_cons_succ]
      exact ih (Nat.lt_of_succ_lt_succ hi) d d'

theorem build_depth (kl : List Str → ℕ → List ℕ) (summ : List Str → Str)
    (chunks : List Str) (maxd minc : ℕ) :
    (build_raptor_tree kl summ chunks maxd minc).depth
      = (buildLevels kl summ maxd minc maxd 1 chunks).length := rfl

theorem build_clusters (kl : List Str → ℕ → List ℕ) (summ : List Str → Str)
    (chunks : List Str) (maxd minc : ℕ) :
    (build_raptor_tree kl summ chunks maxd minc).clusters
      = (buildLevels kl summ maxd minc maxd 1 chunks).map LevelData.cls := rfl

theorem build_summaries (kl : List Str → ℕ → List ℕ) (summ : List Str → Str)
    (chunks : List Str) (maxd minc : ℕ) :
    (build_raptor_tree kl summ chunks maxd minc).summaries
      = (chunks.enum.map (fun p => (chunkId p.1, p.2)))
        :: (buildLevels kl summ maxd minc maxd 1 chunks).map LevelData.sums := rfl

theorem levelTextsAt_eq (kl : List Str → ℕ → List ℕ) (summ : List Str → Str)
    (chunks : List Str) (maxd minc : ℕ) : ∀ (i : ℕ),
    i ≤ (buildLevels kl summ maxd minc maxd 1 chunks).length →
    levelTextsAt (build_raptor_tree kl summ chunks maxd minc) i
      = lvlTexts chunks (buildLevels kl summ maxd minc maxd 1 chunks) i := by
  intro i hi
  cases i with
  | zero =>
    show ((chunks.enum.map (fun p => (chunkId p.1, p.2))).map Prod.snd) = chunks
    rw [List.map_map]
    exact List.enum_map_snd chunks
  | succ j =>
    show (((buildLevels kl summ maxd minc maxd 1 chunks).map LevelData.sums).getD j []).map
        Prod.snd = _
    rw [getD_map_of_lt (by omega) [] default]
    rfl

/-! ## Claim theorems: the RAPTOR hierarchy -/

/-- C3 (code_bug evaluation): four chunks clustered as `{0, 2}` and `{1, 3}` at level 1.
The summary node of cluster 0 (node index 4, id `summary_level1_cluster0`) gets children
`[chunk_0, chunk_1]` — built from the enumeration positions — although its recorded
cluster members are `[0, 2]`, whose ids are `[chunk_0, chunk_2]`: `chunk_1` is not a
member and `chunk_2` is lost. -/
theorem raptor_children_bug :
    ((build_raptor_tree (fun _ _ => [0, 1, 0, 1]) summarizeFallback
        [['a'], ['b'], ['c'], ['d']] 3 4).nodes.getD 4 (RNode.mk [] [] 0 [])).id
      = summaryId 1 0
    ∧ ((build_raptor_tree (fun _ _ => [0, 1, 0, 1]) summarizeFallback
        [['a'], ['b'], ['c'], ['d']] 3 4).nodes.getD 4 (RNode.mk [] [] 0 [])).level = 1
    ∧ ((build_raptor_tree (fun _ _ => [0, 1, 0, 1]) summarizeFallback
        [['a'], ['b'], ['c'], ['d']] 3 4).clusters.getD 0 []).getD 0 [] = [0, 2]
    ∧ ((build_raptor_tree (fun _ _ => [0, 1, 0, 1]) summarizeFallback
        [['a'], ['b'], ['c'], ['d']] 3 4).nodes.getD 4 (RNode.mk [] [] 0 [])).children
      = [chunkId 0, chunkId 1]
    ∧ [chunkId 0, chunkId 1] ≠ [chunkId 0, chunkId 2] := by
  decide

theorem firstOcc_aux_mem : ∀ (l acc : List ℕ) (x : ℕ),
    (x ∈ l.foldl (fun acc a => if a ∈ acc then acc else acc ++ [a]) acc
      ↔ x ∈ acc ∨ x ∈ l) := by
  intro l
  induction l with
  | nil => intro acc x; simp
  | cons a as ih =>
    intro acc x
    rw [List.foldl_cons, ih]
    by_cases ha : a ∈ acc
    · rw [if_pos ha]
      simp only [List.mem_cons]
      constructor
      · rintro (h | h)
        · exact Or.inl h
        · exact Or.inr (Or.inr h)
      · rintro (h | rfl | h)
        · exact Or.inl h
        · exact Or.inl ha
        · exact Or.inr h
    · rw [if_neg ha]
      simp only [List.mem_append, List.mem_singleton, List.mem_cons]
      tauto

theorem firstOcc_mem (l : List ℕ) (x : ℕ) : x ∈ firstOcc l ↔ x ∈ l := by
  rw [firstOcc, firstOcc_aux_mem]
  simp

theorem firstOcc_aux_nodup : ∀ (l acc : List ℕ), acc.Nodup →
    (l.foldl (fun acc a => if a ∈ acc then acc else acc ++ [a]) acc).Nodup := by
  intro l
  induction l with
  | nil => intro acc h; exact h
  | cons a as ih =>
    intro acc h
    rw [List.foldl_cons]
    by_cases ha : a ∈ acc
    · rw [if_pos ha]; exact ih acc h
    · rw [if_neg ha]
      refine ih _ (List.nodup_append.mpr ⟨h, List.nodup_singleton a, ?_⟩)
      intro x hx hx'
      rcases List.mem_singleton.mp hx' with rfl
      exact ha hx

theorem firstOcc_nodup (l : List ℕ) : (firstOcc l).Nodup :=
  firstOcc_aux_nodup l [] List.nodup_nil

/-- The K-Means label grouping yields exactly two clusters when the labels cover `{0,1}`
(sklearn never returns an empty cluster, so with `n_clusters = 2` both labels occur). -/
theorem firstOcc_length_two {l : List ℕ} (hlab : ∀ x ∈ l, x < 2) (h0 : 0 ∈ l)
    (h1 : 1 ∈ l) : (firstOcc l).length = 2 := by
  have hnd := firstOcc_nodup l
  have hcard : (firstOcc l).toFinset.card = (firstOcc l).length :=
    List.toFinset_card_of_nodup hnd
  have hsub : (firstOcc l).toFinset ⊆ ({0, 1} : Finset ℕ) := by
    intro x hx
    have hxl : x ∈ l := (firstOcc_mem l x).mp (List.mem_toFinset.mp hx)
    have hx2 := hlab x hxl
    interval_cases x
    · simp
    · simp
  have hsub2 : ({0, 1} : Finset ℕ) ⊆ (firstOcc l).toFinset := by
    intro x hx
    rcases Finset.mem_insert.mp hx with rfl | hx
    · exact List.mem_toFinset.mpr ((firstOcc_mem l 0).mpr h0)
    · rcases Finset.mem_singleton.mp hx with rfl
      exact List.mem_toFinset.mpr ((firstOcc_mem l 1).mpr h1)
  have heq : (firstOcc l).toFinset = ({0, 1} : Finset ℕ) :=
    Finset.Subset.antisymm hsub hsub2
  rw [← hcard, heq]
  decide

theorem buildLevels_stop (kl : List Str → ℕ → List ℕ) (summ : List Str → Str)
    (maxd minc fuel level : ℕ) (chunks : List Str)
    (h : ¬ (level ≤ maxd ∧ minc ≤ chunks.length)) :
    buildLevels kl summ maxd minc fuel level chunks = [] := by
  cases fuel with
  | zero => rfl
  | succ f => rw [buildLevels_succ, if_neg h]

theorem buildLevels_go (kl : List Str → ℕ → List ℕ) (summ : List Str → Str)
    (maxd minc fuel level : ℕ) (chunks : List Str) (hfuel : 0 < fuel)
    (h : level ≤ maxd ∧ minc ≤ chunks.length) :
    buildLevels kl summ maxd minc fuel level chunks
      = LevelData.mk (cluster_chunks kl chunks (max 2 (chunks.length / minc)))
          (levelSums summ level chunks
            (cluster_chunks kl chunks (max 2 (chunks.length / minc))))
          (levelNodes level (cluster_chunks kl chunks (max 2 (chunks.length / minc)))
            (levelSums summ level chunks
              (cluster_chunks kl chunks (max 2 (chunks.length / minc)))))
        :: buildLevels kl summ maxd minc (fuel - 1) (level + 1)
            ((levelSums summ level chunks
              (cluster_chunks kl chunks (max 2 (chunks.length / minc)))).map Prod.snd) := by
  cases fuel with
  | zero => cases hfuel
  | succ f =>
    rw [buildLevels_succ, if_pos h]
    rfl

/-- The scenario of C6: 8 fragments, `max_depth = 3`, `min_cluster_size = 4`, a label
function covering both of the `8 // 4 = 2` requested clusters: level 1 gets exactly 2
nodes and the loop stops there (2 < 4), so the depth is 1 ≤ 3. -/
theorem raptor_scenario (kl : List Str → ℕ → List ℕ) (summ : List Str → Str)
    (c8 : List Str) (hlen8 : c8.length = 8) (hlab : ∀ lab ∈ kl c8 2, lab < 2)
    (h0 : 0 ∈ kl c8 2) (h1 : 1 ∈ kl c8 2) :
    countLevel (build_raptor_tree kl summ c8 3 4) 1 = 2
    ∧ (build_raptor_tree kl summ c8 3 4).depth ≤ 3 := by
  have hc8 : max 2 (c8.length / 4) = 2 := by rw [hlen8]; decide
  have hcls : cluster_chunks kl c8 (max 2 (c8.length / 4)) = groupByLabels (kl c8 2) := by
    rw [hc8, cluster_chunks, if_neg (by rw [hlen8]; omega)]
  have hclen : (groupByLabels (kl c8 2)).length = 2 := by
    rw [groupByLabels, List.length_map]
    exact firstOcc_length_two hlab h0 h1
  have hsums_len : ∀ sums : List (Str × Str),
      sums = levelSums summ 1 c8 (groupByLabels (kl c8 2)) → sums.length = 2 := by
    intro sums hs
    rw [hs, levelSums, List.length_map, List.enum_length, hclen]
  have hunf1 : buildLevels kl summ 3 4 3 1 c8
      = [LevelData.mk (groupByLabels (kl c8 2))
          (levelSums summ 1 c8 (groupByLabels (kl c8 2)))
          (levelNodes 1 (groupByLabels (kl c8 2))
            (levelSums summ 1 c8 (groupByLabels (kl c8 2))))] := by
    rw [buildLevels_go kl summ 3 4 3 1 c8 (by omega) ⟨by omega, by rw [hlen8]; omega⟩]
    rw [hcls]
    rw [buildLevels_stop kl summ 3 4 (3 - 1) (1 + 1) _ ?_]
    · rintro ⟨_, hge⟩
      rw [List.length_map, hsums_len _ rfl] at hge
      omega
  constructor
  · rw [countLevel,
      show (build_raptor_tree kl summ c8 3 4).nodes
        = c8.enum.map (fun p => RNode.mk (chunkId p.1) p.2 0 [])
          ++ ((buildLevels kl summ 3 4 3 1 c8).map LevelData.nodes).flatten from rfl,
      hunf1]
    rw [List.map_cons, List.map_nil, List.flatten_cons, List.flatten_nil,
      List.append_nil, List.countP_append]
    have hleaf : (c8.enum.map (fun p => RNode.mk (chunkId p.1) p.2 0 [])).countP
        (fun nd => decide (nd.level = 1)) = 0 := by
      rw [List.countP_eq_zero]
      intro nd hnd
      rcases List.mem_map.mp hnd with ⟨p, _, rfl⟩
      simp
    have hlvl : (LevelData.mk (groupByLabels (kl c8 2))
        (levelSums summ 1 c8 (groupByLabels (kl c8 2)))
        (levelNodes 1 (groupByLabels (kl c8 2))
          (levelSums summ 1 c8 (groupByLabels (kl c8 2))))).nodes.countP
        (fun nd => decide (nd.level = 1)) = 2 := by
      show (levelNodes 1 (groupByLabels (kl c8 2))
          (levelSums summ 1 c8 (groupByLabels (kl c8 2)))).countP
          (fun nd => decide (nd.level = 1)) = 2
      rw [List.countP_eq_length.mpr ?_]
      · rw [levelNodes, List.length_map, List.length_zip, hclen, hsums_len _ rfl]
        decide
      · intro nd hnd
        rcases List.mem_map.mp hnd with ⟨p, _, rfl⟩
        simp
    rw [hleaf, hlvl]
  · rw [build_depth, hunf1]
    simp

/-- C6: the level-building loop of `build_raptor_tree`. The depth never exceeds
`max_depth` and equals the number of loop iterations executed (one recorded cluster set
per iteration, one summaries level beyond level 0); at every executed iteration the
guard `current_level ≤ max_depth ∧ min_cluster_size ≤ count` held and
`n_clusters = max 2 (count / min_cluster_size)` was used on that level's texts; and in
the 8-fragment scenario with `max_depth = 3`, `min_cluster_size = 4` (labels covering
both requested clusters, as K-Means guarantees) level 1 has exactly 2 nodes and the
depth is ≤ 3. -/
theorem raptor_loop_spec (kl : List Str → ℕ → List ℕ) (summ : List Str → Str)
    (chunks : List Str) (maxd minc : ℕ) :
    (build_raptor_tree kl summ chunks maxd minc).depth ≤ maxd
    ∧ (build_raptor_tree kl summ chunks maxd minc).depth
        = (build_raptor_tree kl summ chunks maxd minc).clusters.length
    ∧ (build_raptor_tree kl summ chunks maxd minc).summaries.length
        = (build_raptor_tree kl summ chunks maxd minc).depth + 1
    ∧ (∀ i, i < (build_raptor_tree kl summ chunks maxd minc).depth →
        minc ≤ (levelTextsAt (build_raptor_tree kl summ chunks maxd minc) i).length
        ∧ i + 1 ≤ maxd
        ∧ (build_raptor_tree kl summ chunks maxd minc).clusters.getD i []
            = cluster_chunks kl
                (levelTextsAt (build_raptor_tree kl summ chunks maxd minc) i)
                (max 2
                  ((levelTextsAt (build_raptor_tree kl summ chunks maxd minc) i).length
                    / minc)))
    ∧ (∀ c8 : List Str, c8.length = 8 → (∀ lab ∈ kl c8 2, lab < 2) →
        0 ∈ kl c8 2 → 1 ∈ kl c8 2 →
        countLevel (build_raptor_tree kl summ c8 3 4) 1 = 2
        ∧ (build_raptor_tree kl summ c8 3 4).depth ≤ 3) := by
  refine ⟨?_, ?_, ?_, ?_, ?_⟩
  · rw [build_depth]
    exact buildLevels_length_le kl summ maxd minc maxd 1 chunks
  · rw [build_depth, build_clusters, List.length_map]
  · rw [build_depth, build_summaries, List.length_cons, List.length_map]
  · intro i hi
    rw [build_depth] at hi
    have hch := buildLevels_chain kl summ maxd minc maxd 1 chunks i hi
    rw [levelTextsAt_eq kl summ chunks maxd minc i (le_of_lt hi)]
    refine ⟨hch.1, by have := hch.2.1; omega, ?_⟩
    rw [build_clusters, getD_map_of_lt hi [] default]
    exact hch.2.2
  · intro c8 h8 hlab h0 h1
    exact raptor_scenario kl summ c8 h8 hlab h0 h1

/-- C6 (witness): the scenario instantiated with 8 concrete one-character fragments and
the alternating label function. -/
theorem raptor_loop_spec_witness :
    countLevel (build_raptor_tree (fun _ _ => [0, 1, 0, 1, 0, 1, 0, 1]) summarizeFallback
        [['a'], ['b'], ['c'], ['d'], ['e'], ['f'], ['g'], ['h']] 3 4) 1 = 2
    ∧ (build_raptor_tree (fun _ _ => [0, 1, 0, 1, 0, 1, 0, 1]) summarizeFallback
        [['a'], ['b'], ['c'], ['d'], ['e'], ['f'], ['g'], ['h']] 3 4).depth ≤ 3 :=
  (raptor_loop_spec (fun _ _ => [0, 1, 0, 1, 0, 1, 0, 1]) summarizeFallback
      [['a'], ['b'], ['c'], ['d'], ['e'], ['f'], ['g'], ['h']] 3 4).2.2.2.2
    [['a'], ['b'], ['c'], ['d'], ['e'], ['f'], ['g'], ['h']] (by decide) (by decide)
    (by decide) (by decide)

/-- C8 (witness): concrete instantiation of the amended statement. -/
theorem oversample_amended_witness :
    hybrid_search (fun _ _ => [(0, 1)]) initState ['q'] 5 none true
      = hybrid_search (fun _ _ => [(0, 1)]) initState ['q'] 5 none true
    ∧ hybridSemanticRequest 5 1000 = min (5 * 20) 1000
    ∧ hybridKeywordRequest 5 = 5 * 2
    ∧ (keyword_search initState ['q'] (hybridKeywordRequest 5) none).length
        ≤ hybridKeywordRequest 5 :=
  oversample_amended (fun _ _ => [(0, 1)]) (fun _ _ => [(0, 1)]) initState ['q'] 5 1000
    none true rfl

/-- C10 (witness): a one-document corpus and a FAISS hit on position 0: the single
returned record satisfies the output contract. -/
theorem hybrid_search_output_spec_witness :
    (SearchRecord.mk ['d','_','0'] ['c','a','t'] (Meta.mk ['d'] 1 0 3) 1)
        ∈ hybrid_search (fun _ _ => [(0, 1)])
          (add_documents initState [Chunk.mk ['c','a','t'] 1] ['d']) ['z'] 1 none true
    ∧ (SearchRecord.mk ['d','_','0'] ['c','a','t'] (Meta.mk ['d'] 1 0 3) 1).id
        ∈ (add_documents initState
            [Chunk.mk ['c','a','t'] 1] ['d']).documents_metadata.map Prod.fst
    ∧ ∃ e, lookupMeta (add_documents initState
          [Chunk.mk ['c','a','t'] 1] ['d']).documents_metadata
          (SearchRecord.mk ['d','_','0'] ['c','a','t'] (Meta.mk ['d'] 1 0 3) 1).id = some e
        ∧ (SearchRecord.mk ['d','_','0'] ['c','a','t'] (Meta.mk ['d'] 1 0 3) 1).text = e.text
        ∧ (SearchRecord.mk ['d','_','0'] ['c','a','t'] (Meta.mk ['d'] 1 0 3) 1).metadata
            = e.metadata := by
  have hs : add_documents initState [Chunk.mk ['c','a','t'] 1] ['d']
      = RAGState.mk [(['d','_','0'], Entry.mk ['c','a','t'] (Meta.mk ['d'] 1 0 3))]
          [['d','_','0']] 1 := by decide
  have hterms : pySplit (lowerStr ['z']) = [['z']] := by decide
  have hsurv : kwSurvivors (RAGState.mk
      [(['d','_','0'], Entry.mk ['c','a','t'] (Meta.mk ['d'] 1 0 3))] [['d','_','0']] 1)
      [['z']] = [] := by
    rw [kwSurvivors, List.filterMap_cons]
    have hspec : specScore [['z']]
        (lowerStr (Entry.mk ['c','a','t'] (Meta.mk ['d'] 1 0 3)).text) = 0 := by
      rw [show (lowerStr (Entry.mk ['c','a','t'] (Meta.mk ['d'] 1 0 3)).text)
          = ['c','a','t'] from by decide, specScore]
      have c1 : ([['z']].countP (fun t => containsSub t ['c','a','t'])) = 0 := by decide
      have c2 : ([['z']].countP (fun t =>
          containsSub (' ' :: (t ++ [' '])) (' ' :: (['c','a','t'] ++ [' '])))) = 0 := by
        decide
      rw [c1, c2]
      norm_num
    rw [if_neg (by rw [hspec]; norm_num)]
    rfl
  have hkw : ∀ n : ℕ, keyword_search (RAGState.mk
      [(['d','_','0'], Entry.mk ['c','a','t'] (Meta.mk ['d'] 1 0 3))] [['d','_','0']] 1)
      ['z'] n none = [] := by
    intro n
    rw [keyword_search_eq, hterms, hsurv, if_pos rfl, List.take_nil]
  have hmem : (SearchRecord.mk ['d','_','0'] ['c','a','t'] (Meta.mk ['d'] 1 0 3) 1)
      ∈ hybrid_search (fun _ _ => [(0, 1)])
        (add_documents initState [Chunk.mk ['c','a','t'] 1] ['d']) ['z'] 1 none true := by
    rw [hs]
    have heval : hybrid_search (fun _ _ => [(0, 1)]) (RAGState.mk
        [(['d','_','0'], Entry.mk ['c','a','t'] (Meta.mk ['d'] 1 0 3))] [['d','_','0']] 1)
        ['z'] 1 none true
        = [SearchRecord.mk ['d','_','0'] ['c','a','t'] (Meta.mk ['d'] 1 0 3) 1] := by
      norm_num [hybrid_search, vector_search, reciprocal_rank_fusion, faissRequest,
        rrf_k_setting, hkw, rrfAdd, bump, sortDesc, insertD, maxD, lookupMeta]
      simp
    rw [heval]
    exact List.mem_singleton_self _
  exact ⟨hmem, ((hybrid_search_output_spec (fun _ _ => [(0, 1)])
    (add_documents initState [Chunk.mk ['c','a','t'] 1] ['d']) ['z'] 1 none true).2 _
    hmem).1, ((hybrid_search_output_spec (fun _ _ => [(0, 1)])
    (add_documents initState [Chunk.mk ['c','a','t'] 1] ['d']) ['z'] 1 none true).2 _
    hmem).2⟩


end PdfConsultor
